import Mathlib

/-!
# Verification of the music-dagistan graph engine

A shallow embedding of the graph store, build logic and query algorithms of
the music-dagistan repository (`src/graph.js` / `graph.ts`,
`server/src/resolvers.ts`), together with proofs and refutations of the
specified properties.

Modelling conventions:
* A JavaScript `Map` becomes an association list `List (String × α)` whose
  `set` operation updates an existing key in place (keeping its position)
  and appends a fresh key at the end — exactly the insertion-order
  semantics of `Map`.
* A JavaScript open-ended object record becomes `List (String × Val)` with
  the same in-place/append key semantics as object literals.
* Numbers are `Int` for edge weights and `ℚ` for centrality values (the
  code only ever stores weights and computes `degree * scale`).
* The unbounded `while` loops of the BFS / DFS are given explicit fuel;
  the fuel bounds are proved sufficient, so the embedded functions agree
  with the source loops on every input.
* `throw` in `addNode` becomes `Except.error`.
-/

namespace MusicDagistan

/-- A value stored in one field of a node record.  The records in the
source carry string fields (`id`, `name`, `nodeType`, `communityId`),
numeric fields (`year`), lists of ids (`songIds`) and the nested credit
lists of a song (`credits`). -/
inductive Val where
  | str (s : String)
  | num (n : Int)
  | strs (l : List String)
  | creditsV (writers producers performers : Option (List String))
  | undef
deriving DecidableEq, Repr

/-- A JavaScript object record: ordered fields, unique keys in practice. -/
abbrev NodeRecord := List (String × Val)

/-- `Map.get(key)` — first (in practice only) binding of `key`. -/
def alGet {α : Type} : List (String × α) → String → Option α
  | [], _ => none
  | kv :: rest, key => if kv.1 = key then some kv.2 else alGet rest key

/-- `Map.get(key) ?? d`. -/
def alGetD {α : Type} (m : List (String × α)) (key : String) (d : α) : α :=
  (alGet m key).getD d

/-- `Map.has(key)`. -/
def alHas {α : Type} (m : List (String × α)) (key : String) : Bool :=
  (alGet m key).isSome

/-- `Map.set(key, v)`: update in place when present, append when fresh. -/
def alSet {α : Type} : List (String × α) → String → α → List (String × α)
  | [], key, v => [(key, v)]
  | kv :: rest, key, v => if kv.1 = key then (key, v) :: rest else kv :: alSet rest key v

/-- The graph store: `adjacency : Map<string, Map<string, number>>` and
`nodeData : Map<string, record>`. -/
structure Graph where
  adjacency : List (String × List (String × Int))
  nodeData : List (String × NodeRecord)
deriving DecidableEq, Repr

/-- `new Graph()`. -/
def Graph.empty : Graph := ⟨[], []⟩

/-- `node.id ?? node.name`, restricted to the string-valued ids and names
this codebase stores. -/
def nodeIdOf (node : NodeRecord) : Option String :=
  match alGet node "id" with
  | some (Val.str s) => some s
  | _ =>
    match alGet node "name" with
    | some (Val.str s) => some s
    | _ => none

/-- The object literal `{ id, ...node }`: key `id` first, then the fields
of `node` in order, later keys overwriting earlier values in place. -/
def storedRecord (id : String) (node : NodeRecord) : NodeRecord :=
  node.foldl (fun acc kv => alSet acc kv.1 kv.2) [("id", Val.str id)]

/-- `Graph.addNode` (graph.ts): computes the id, throws when it is
missing or empty (`if (!id) throw`), creates a fresh adjacency entry only
for a new id, and stores `{ id, ...node }` under the id. -/
def Graph.addNode (g : Graph) (node : NodeRecord) : Except String Graph :=
  match nodeIdOf node with
  | none => .error "Node must have an id or name"
  | some id =>
    if id = "" then .error "Node must have an id or name"
    else
      .ok { adjacency :=
              if alHas g.adjacency id then g.adjacency else g.adjacency ++ [(id, [])],
            nodeData := alSet g.nodeData id (storedRecord id node) }

/-- The stub record `{ id: a, name: a }` used by `addEdge` for missing
endpoints. -/
def stubNode (a : String) : NodeRecord := [("id", Val.str a), ("name", Val.str a)]

/-- `Graph.addEdge(a, b, weight)` (graph.ts): stubs missing endpoints,
then sets `adjacency[a][b] = w` and `adjacency[b][a] = w` in sequence
(the second write reads the adjacency already updated by the first).
A `throw` escaping the stub `addNode` propagates.  The `meta` argument
of the source is discarded by the function itself. -/
def Graph.addEdge (g : Graph) (a b : String) (w : Int) : Except String Graph :=
  match (if alHas g.adjacency a then Except.ok g else g.addNode (stubNode a)) with
  | .error e => .error e
  | .ok g1 =>
    match (if alHas g1.adjacency b then Except.ok g1 else g1.addNode (stubNode b)) with
    | .error e => .error e
    | .ok g2 =>
      let adj1 := alSet g2.adjacency a (alSet (alGetD g2.adjacency a []) b w)
      let adj2 := alSet adj1 b (alSet (alGetD adj1 b []) a w)
      .ok { g2 with adjacency := adj2 }

/-- `Graph.neighbors(id)`: keys of the id's adjacency entry, `[]` when the
id is unknown. -/
def Graph.neighbors (g : Graph) (id : String) : List String :=
  (alGetD g.adjacency id []).map Prod.fst

/-- `Graph.degree(id)`: size of the id's adjacency entry, 0 when unknown. -/
def Graph.degree (g : Graph) (id : String) : Nat :=
  (alGetD g.adjacency id []).length

/-- `Graph.nodes()`: adjacency keys in first-insertion order. -/
def Graph.nodes (g : Graph) : List String :=
  g.adjacency.map Prod.fst

/-- The dedup key `` a < b ? `${a}|${b}` : `${b}|${a}` `` of `edges()`. -/
def edgeKey (a b : String) : String :=
  if a < b then a ++ "|" ++ b else b ++ "|" ++ a

/-- Inner loop of `edges()` over one adjacency entry, threading the seen
set and the output list. -/
def edgesInner (a : String) :
    List (String × Int) → List String → List (String × String) →
      List String × List (String × String)
  | [], seen, all => (seen, all)
  | bw :: rest, seen, all =>
    if seen.contains (edgeKey a bw.1) then edgesInner a rest seen all
    else edgesInner a rest (edgeKey a bw.1 :: seen) (all ++ [(a, bw.1)])

/-- Outer loop of `edges()` over the adjacency entries. -/
def edgesOuter :
    List (String × List (String × Int)) → List String → List (String × String) →
      List (String × String)
  | [], _, all => all
  | e :: rest, seen, all =>
    let sa := edgesInner e.1 e.2 seen all
    edgesOuter rest sa.1 sa.2

/-- `Graph.edges()`: every undirected pair once, deduplicated by the
string key `edgeKey`. -/
def Graph.edges (g : Graph) : List (String × String) :=
  edgesOuter g.adjacency [] []

/-- `Graph.degreeCentrality(normalize)`: `degree(id) * scale` for every
node, with `scale = normalize && N > 1 ? 1/(N-1) : 1`. -/
def Graph.degreeCentrality (g : Graph) (normalize : Bool) : List (String × ℚ) :=
  let N : Nat := g.adjacency.length
  let scale : ℚ := if normalize ∧ N > 1 then 1 / ((N : ℚ) - 1) else 1
  g.nodes.map (fun id => (id, (g.degree id : ℚ) * scale))

/-! ## Breadth-first shortest path (`Graph.shortestPath`) -/

/-- All neighbor keys appearing anywhere in the adjacency, with
multiplicity; only used to bound the BFS/DFS work. -/
def allNbrKeys (g : Graph) : List String :=
  (g.adjacency.map (fun e => e.2.map Prod.fst)).flatten

/-- Result of scanning the neighbors of the dequeued node: either the
target was just discovered (early return with the parent map), or the
updated visited set, parent map and freshly enqueued nodes. -/
inductive ScanRes where
  | found (parent : List (String × String))
  | next (visited : List String) (parent : List (String × String)) (added : List String)
deriving Repr

/-- The `for (const nbr of this.neighbors(current))` loop of
`shortestPath`: skip visited neighbors, mark fresh ones visited, record
their parent, return early on the target, otherwise enqueue them. -/
def bfsScan (current target : String) :
    List String → List String → List (String × String) → List String → ScanRes
  | [], visited, parent, added => .next visited parent added
  | nbr :: rest, visited, parent, added =>
    if visited.contains nbr then bfsScan current target rest visited parent added
    else
      if nbr = target then .found (alSet parent nbr current)
      else
        bfsScan current target rest (visited ++ [nbr]) (alSet parent nbr current)
          (added ++ [nbr])

/-- The `while (queue.length)` loop of `shortestPath`.  The source loop
is unbounded; here it carries fuel, and `bfsFuel` below is proved large
enough that the zero-fuel case is never reached. -/
def bfsLoop (g : Graph) (target : String) :
    Nat → List String → List String → List (String × String) →
      Option (List (String × String))
  | 0, _, _, _ => none
  | _ + 1, [], _, _ => none
  | fuel + 1, current :: qrest, visited, parent =>
    match bfsScan current target (g.neighbors current) visited parent [] with
    | .found parent2 => some parent2
    | .next visited2 parent2 added => bfsLoop g target fuel (qrest ++ added) visited2 parent2

/-- Fuel for the BFS queue loop: each dequeue consumes one unit and every
enqueued node is fresh in `visited`, so the loop runs at most
`1 + |allNbrKeys g|` times. -/
def bfsFuel (g : Graph) : Nat := (allNbrKeys g).length + 2

/-- The `while (cur !== source)` walk of `reconstructPath`, accumulating
the path in discovery order and reversing at the source.  The fuel
`parent.length + 1` is proved sufficient for every parent map the search
produces. -/
def reconstructGo (parent : List (String × String)) (source : String) :
    Nat → String → List String → Option (List String)
  | 0, _, _ => none
  | fuel + 1, cur, path =>
    if cur = source then some path.reverse
    else
      match alGet parent cur with
      | none => none
      | some p => reconstructGo parent source fuel p (path ++ [p])

/-- `Graph.reconstructPath(parent, source, target)`. -/
def Graph.reconstructPath (parent : List (String × String)) (source target : String) :
    Option (List String) :=
  reconstructGo parent source (parent.length + 1) target [target]

/-- `Graph.shortestPath(source, target)`: `null` when an endpoint is
unknown, `[source]` when the endpoints coincide, otherwise BFS from the
source with early return upon discovering the target. -/
def Graph.shortestPath (g : Graph) (source target : String) : Option (List String) :=
  if ¬ (alHas g.adjacency source ∧ alHas g.adjacency target) then none
  else if source = target then some [source]
  else
    match bfsLoop g target (bfsFuel g) [source] [source] [] with
    | none => none
    | some parent => Graph.reconstructPath parent source target

/-! ## Connected components (`Graph.connectedComponents`) -/

/-- The `for (const nbr of this.neighbors(node))` push loop of the DFS:
fresh neighbors are marked visited and pushed.  The JS array `stack` is
pushed/popped at its end; the Lean list keeps the top at its head, so a
push is a cons. -/
def dfsPush : List String → List String → List String → List String × List String
  | [], stack, visited => (stack, visited)
  | nbr :: rest, stack, visited =>
    if visited.contains nbr then dfsPush rest stack visited
    else dfsPush rest (nbr :: stack) (visited ++ [nbr])

/-- The `while (stack.length)` loop of `connectedComponents`, with fuel
(proved sufficient below, as for the BFS). -/
def dfsLoop (g : Graph) :
    Nat → List String → List String → List String → List String × List String
  | 0, _, visited, comp => (visited, comp)
  | _ + 1, [], visited, comp => (visited, comp)
  | fuel + 1, node :: stackRest, visited, comp =>
    let sv := dfsPush (g.neighbors node) stackRest visited
    dfsLoop g fuel sv.1 sv.2 (comp ++ [node])

/-- Fuel for one DFS stack loop. -/
def dfsFuel (g : Graph) : Nat := (allNbrKeys g).length + g.nodes.length + 2

/-- The `for (const start of this.nodes())` loop of
`connectedComponents`, threading the global visited set. -/
def ccOuter (g : Graph) :
    List String → List String → List (List String) →
      List String × List (List String)
  | [], visited, comps => (visited, comps)
  | start :: rest, visited, comps =>
    if visited.contains start then ccOuter g rest visited comps
    else
      let vc := dfsLoop g (dfsFuel g) [start] (visited ++ [start]) []
      ccOuter g rest vc.1 (comps ++ [vc.2])

/-- `Graph.connectedComponents()`: iterative DFS from every unvisited
node in `nodes()` order. -/
def Graph.connectedComponents (g : Graph) : List (List String) :=
  (ccOuter g g.nodes [] []).2

/-- `Graph.assignCommunities()`: store `communityId = "C" + (idx+1)` on
every member of every component via `{ ...data, communityId }`. -/
def Graph.assignCommunities (g : Graph) : Graph :=
  let components := g.connectedComponents
  let nodeData :=
    components.enum.foldl
      (fun nd ci =>
        ci.2.foldl
          (fun nd id =>
            let data := (alGet nd id).getD [("id", Val.str id), ("name", Val.str id)]
            alSet nd id (alSet data "communityId" (Val.str ("C" ++ toString (ci.1 + 1)))))
          nd)
      g.nodeData
  { g with nodeData := nodeData }

/-! ## The GraphQL `search` resolver (`server/src/resolvers.ts`) -/

/-- `name.includes(q)` on JavaScript strings: substring containment. -/
def jsIncludes (s q : String) : Bool :=
  decide (q.data <:+: s.data)

/-- The display name the resolver uses for a node id:
`(graph.nodeData.get(id) || { id, name: id }).name ?? id`. -/
def resolverName (g : Graph) (id : String) : String :=
  match alGet g.nodeData id with
  | some data =>
    match alGet data "name" with
    | some (Val.str s) => s
    | _ => id
  | none => id

/-- The `nodeType` string of a node id, uppercased as `toNodeTypeEnum`
does (`'ARTIST'` when absent); used by `filterByNodeType`. -/
def resolverNodeType (g : Graph) (id : String) : String :=
  match alGet g.nodeData id with
  | some data =>
    match alGet data "nodeType" with
    | some (Val.str s) => s.toUpper
    | _ => "ARTIST"
  | none => "ARTIST"

/-- `Query.search(query, nodeTypes, limit)` restricted to the node ids it
returns: lowercase the query, keep the nodes (in `nodes()` order) whose
lowercased name contains it, optionally filter by node type, optionally
truncate to `limit` when `limit > 0`. -/
def searchResolver (g : Graph) (query : String) (nodeTypes : Option (List String))
    (limit : Option Int) : List String :=
  let q := query.toLower
  let results := g.nodes.filter (fun id => jsIncludes (resolverName g id).toLower q)
  let results :=
    match nodeTypes with
    | some ts => if ts.isEmpty then results
                 else results.filter (fun id => ts.contains (resolverNodeType g id))
    | none => results
  match limit with
  | some l => if l > 0 then results.take l.toNat else results
  | none => results

/-! ## Work-credit ingestion (`addSongCreditsToGraph`, graph.ts) -/

/-- One record of the work-credits dataset. -/
structure SongCredit where
  id : String
  title : String
  artistIds : List String
  year : Option Int
  writers : Option (List String)
  producers : Option (List String)
  performers : Option (List String)
deriving DecidableEq, Repr

/-- `Set.add` on a JavaScript `Set` kept as an ordered list. -/
def setAdd (l : List String) (x : String) : List String :=
  if l.contains x then l else l ++ [x]

/-- The `allCreditedArtists` set of a song: primary performers, then
writers, producers and performer credits, first occurrence kept. -/
def allCreditedArtists (song : SongCredit) : List String :=
  (song.artistIds ++ song.writers.getD [] ++ song.producers.getD [] ++
    song.performers.getD []).foldl setAdd []

/-- The `relation` chosen for the edge (song, artistId): the if/else-if
chain of `addSongCreditsToGraph`. -/
def relationFor (song : SongCredit) (artistId : String) : String :=
  if song.artistIds.contains artistId then "performs"
  else if (song.writers.getD []).contains artistId then "writes"
  else if (song.producers.getD []).contains artistId then "produces"
  else if (song.performers.getD []).contains artistId then "performs"
  else "credited"

/-- The `graph.addEdge(song.id, artistId, 1, { relation, ... })` calls a
song generates, in credited-artist order, with the relation meta the
source attaches (and `addEdge` then discards). -/
def songEdgeCalls (song : SongCredit) : List (String × String × Int × String) :=
  (allCreditedArtists song).map (fun a => (song.id, a, 1, relationFor song a))

/-- The song node record `{ id, name: title, nodeType: 'song', year,
credits }` added for a song. -/
def songRecord (song : SongCredit) : NodeRecord :=
  [("id", Val.str song.id), ("name", Val.str song.title),
   ("nodeType", Val.str "song"),
   ("year", match song.year with | some y => Val.num y | none => Val.undef),
   ("credits", Val.creditsV song.writers song.producers song.performers)]

/-- The stub artist record `{ id, name: id, nodeType: 'artist' }`. -/
def artistStub (a : String) : NodeRecord :=
  [("id", Val.str a), ("name", Val.str a), ("nodeType", Val.str "artist")]

/-- `addSongCreditsToGraph` restricted to a single song: add the song
node, then for every credited artist add a stub node when `nodeData`
lacks the id and add the edge from `songEdgeCalls`. -/
def addSongToGraph (g : Graph) (song : SongCredit) : Except String Graph := do
  let g ← g.addNode (songRecord song)
  (songEdgeCalls song).foldlM
    (fun g call => do
      let g ← if alHas g.nodeData call.2.1 then pure g else g.addNode (artistStub call.2.1)
      g.addEdge call.1 call.2.1 call.2.2.1)
    g

/-! ## Paths and connectivity over an adjacency map -/

/-- `p` is a sequence in which every consecutive pair is adjacent. -/
def Graph.chainB (g : Graph) : List String → Bool
  | [] => false
  | [_] => true
  | x :: y :: rest => ((g.neighbors x).contains y) && g.chainB (y :: rest)

/-- `p` is a path from `s` to `t` along the adjacency. -/
def Graph.IsPathFT (g : Graph) (s t : String) (p : List String) : Prop :=
  p.head? = some s ∧ p.getLast? = some t ∧ g.chainB p = true

/-- Two ids are connected by some adjacency path. -/
def Graph.Connected (g : Graph) (s t : String) : Prop :=
  ∃ p, g.IsPathFT s t p

/-! ## Association-list lemmas -/

theorem alGet_alSet_self {α : Type} (m : List (String × α)) (k : String) (v : α) :
    alGet (alSet m k v) k = some v := by
  induction m with
  | nil => simp [alSet, alGet]
  | cons kv rest ih =>
    by_cases h : kv.1 = k
    · simp [alSet, alGet, h]
    · simp [alSet, alGet, h, ih]

theorem alGet_alSet_ne {α : Type} (m : List (String × α)) {k k2 : String} (v : α)
    (h : k2 ≠ k) : alGet (alSet m k v) k2 = alGet m k2 := by
  induction m with
  | nil => simp [alSet, alGet, h, Ne.symm h]
  | cons kv rest ih =>
    by_cases hk : kv.1 = k
    · subst hk
      simp [alSet, alGet, Ne.symm h]
    · by_cases hk2 : kv.1 = k2
      · simp [alSet, alGet, hk, hk2, h]
      · simp [alSet, alGet, hk, hk2, ih]

theorem alGet_append {α : Type} (m1 m2 : List (String × α)) (k : String) :
    alGet (m1 ++ m2) k =
      match alGet m1 k with
      | some v => some v
      | none => alGet m2 k := by
  induction m1 with
  | nil => simp [alGet]
  | cons kv rest ih =>
    by_cases h : kv.1 = k
    · simp [alGet, h]
    · simp [alGet, h, ih]

theorem alGet_eq_none_iff {α : Type} (m : List (String × α)) (k : String) :
    alGet m k = none ↔ k ∉ m.map Prod.fst := by
  induction m with
  | nil => simp [alGet]
  | cons kv rest ih =>
    by_cases h : kv.1 = k
    · simp [alGet, h]
    · simp [alGet, h, ih, Ne.symm h]

theorem alHas_iff_mem_keys {α : Type} (m : List (String × α)) (k : String) :
    alHas m k = true ↔ k ∈ m.map Prod.fst := by
  rw [alHas, Option.isSome_iff_ne_none, ne_eq, alGet_eq_none_iff, not_not]

theorem alSet_keys {α : Type} (m : List (String × α)) (k : String) (v : α) :
    (alSet m k v).map Prod.fst =
      if alHas m k then m.map Prod.fst else m.map Prod.fst ++ [k] := by
  induction m with
  | nil => simp [alSet, alHas, alGet]
  | cons kv rest ih =>
    by_cases h : kv.1 = k
    · simp [alSet, alHas, alGet, h]
    · simp only [alSet, h, if_false, List.map_cons, alHas, alGet]
      rw [alHas] at ih
      by_cases h2 : (alGet rest k).isSome <;> simp [h, h2, ih]

/-! ## Concrete fixture graphs -/

/-- Build a graph from a list of weighted edges, starting empty. -/
def buildEdges (l : List (String × String × Int)) : Graph :=
  ((l.foldlM (fun (g : Graph) e => g.addEdge e.1 e.2.1 e.2.2) Graph.empty :
      Except String Graph)).toOption.getD Graph.empty

/-- The simple path graph A–B–C–D of the spec's testable properties. -/
def demoPathGraph : Graph :=
  buildEdges [("A", "B", 1), ("B", "C", 1), ("C", "D", 1)]

/-- A graph holding a single isolated node `a`. -/
def singletonNodeGraph : Graph :=
  (Graph.empty.addNode [("id", Val.str "a"), ("name", Val.str "a")]).toOption.getD Graph.empty

/-! ## C9 — `shortestPath(n, n) = [n]` for present nodes -/

/-- C9: for every node `n` present in a graph, `shortestPath(n, n)`
returns the single-element path `[n]`. -/
theorem c9_shortestPath_self (g : Graph) (n : String)
    (h : alHas g.adjacency n = true) : g.shortestPath n n = some [n] := by
  simp [Graph.shortestPath, h]

/-- C9 witness: the concrete path graph, at node A. -/
theorem c9_shortestPath_self_witness :
    alHas demoPathGraph.adjacency "A" = true ∧
      demoPathGraph.shortestPath "A" "A" = some ["A"] :=
  ⟨by decide, c9_shortestPath_self demoPathGraph "A" (by decide)⟩

/-! ## C4 — degree centrality -/

theorem singletonNodeGraph_eq :
    singletonNodeGraph =
      Graph.mk [("a", [])] [("a", [("id", Val.str "a"), ("name", Val.str "a")])] := rfl

/-- C4 counterexample: the claim's example value is wrong.  On a graph
with a single isolated node, `degreeCentrality(normalize=true)` stores
`0` for that node (its degree is 0 and the scale is 1), not `1`. -/
theorem c4_centrality_counterexample :
    ¬ alGet (singletonNodeGraph.degreeCentrality true) "a" = some 1 := by
  rw [singletonNodeGraph_eq]
  simp [Graph.degreeCentrality, Graph.nodes, Graph.degree, alGetD, alGet]

/-- C4 (amended): `degreeCentrality(normalize)` maps every node id to
`degree(id) * scale` where `scale = 1` when not normalizing or the graph
has at most one node and `1/(N-1)` otherwise; on a single isolated node
with `normalize = true` the stored value is `0` (degree 0, scale 1). -/
theorem c4_degreeCentrality_scale :
    (∀ (g : Graph) (normalize : Bool),
        g.degreeCentrality normalize =
          g.nodes.map (fun id =>
            (id, (g.degree id : ℚ) *
              (if normalize = false ∨ g.adjacency.length ≤ 1 then 1
               else 1 / ((g.adjacency.length : ℚ) - 1))))) ∧
      alGet (singletonNodeGraph.degreeCentrality true) "a" = some 0 := by
  constructor
  · intro g normalize
    cases normalize with
    | false => simp [Graph.degreeCentrality]
    | true =>
      by_cases hN : g.adjacency.length ≤ 1
      · simp [Graph.degreeCentrality, hN, Nat.not_lt.mpr hN]
      · simp [Graph.degreeCentrality, hN, Nat.lt_of_not_le hN]
  · rw [singletonNodeGraph_eq]
    simp [Graph.degreeCentrality, Graph.nodes, Graph.degree, alGetD, alGet]

/-! ## C5 — the `search` resolver -/

/-- `String.toLower` at the level of the underlying character list. -/
theorem toLower_data (s : String) : s.toLower.data = s.data.map Char.toLower := by
  rw [String.toLower, String.map_eq]

/-- `name.includes(q)` is always true for the empty query. -/
theorem jsIncludes_empty_toLower (s : String) :
    jsIncludes s ("".toLower) = true := by
  have h : ("" : String).toLower = "" := by
    apply String.ext
    rw [toLower_data]
    rfl
  simp [h, jsIncludes]

/-- C5 counterexample: the empty query is not special-cased; every name
contains the empty string, so `search("")` returns every node instead of
zero matches. -/
theorem c5_search_counterexample :
    searchResolver singletonNodeGraph "" none none ≠ [] := by
  have h : searchResolver singletonNodeGraph "" none none = singletonNodeGraph.nodes := by
    show singletonNodeGraph.nodes.filter
        (fun id => jsIncludes (resolverName singletonNodeGraph id).toLower ("".toLower)) =
      singletonNodeGraph.nodes
    exact List.filter_eq_self.mpr (fun id _ => jsIncludes_empty_toLower _)
  rw [h, singletonNodeGraph_eq]
  simp [Graph.nodes]

/-- C5 (amended): `search` returns exactly the nodes whose name contains
the query case-insensitively, in `nodes()` order; since every name
contains the empty string, an empty query returns all nodes rather than
none (and a whitespace-only query returns the nodes whose names contain
that whitespace). -/
theorem c5_search_matches :
    (∀ (g : Graph) (q : String),
        searchResolver g q none none =
          g.nodes.filter (fun id => jsIncludes (resolverName g id).toLower q.toLower)) ∧
      (∀ (g : Graph) (q id : String),
        id ∈ searchResolver g q none none ↔
          id ∈ g.nodes ∧ jsIncludes (resolverName g id).toLower q.toLower = true) ∧
      (∀ g : Graph, searchResolver g "" none none = g.nodes) := by
  refine ⟨fun g q => rfl, fun g q id => ?_, fun g => ?_⟩
  · simp [searchResolver, List.mem_filter]
  · show g.nodes.filter _ = g.nodes
    exact List.filter_eq_self.mpr (fun id _ => jsIncludes_empty_toLower _)

/-! ## C6 — `addNode` upsert semantics -/

/-- Keys of the object literal `{ id, ...node }` come from `node` or are
the leading `"id"`. -/
theorem foldl_alSet_get_sub (node : NodeRecord) :
    ∀ (acc : NodeRecord) (k : String) (v : Val),
      alGet (node.foldl (fun a kv => alSet a kv.1 kv.2) acc) k = some v →
      (∃ w, alGet node k = some w) ∨ alGet acc k = some v := by
  induction node with
  | nil => intro acc k v h; exact Or.inr h
  | cons kv rest ih =>
    intro acc k v h
    rcases ih (alSet acc kv.1 kv.2) k v h with hrest | hacc
    · left
      obtain ⟨w, hw⟩ := hrest
      by_cases hk : kv.1 = k
      · exact ⟨kv.2, by simp [alGet, hk]⟩
      · exact ⟨w, by simp [alGet, hk, hw]⟩
    · by_cases hk : kv.1 = k
      · subst hk
        rw [alGet_alSet_self] at hacc
        exact Or.inl ⟨kv.2, by simp [alGet]⟩
      · rw [alGet_alSet_ne _ _ (fun hh => hk hh.symm)] at hacc
        exact Or.inr hacc

/-- Fields absent from `node` are untouched by the object-literal fold. -/
theorem foldl_alSet_frame (node : NodeRecord) :
    ∀ (acc : NodeRecord) (k : String), alGet node k = none →
      alGet (node.foldl (fun a kv => alSet a kv.1 kv.2) acc) k = alGet acc k := by
  induction node with
  | nil => intro acc k _; rfl
  | cons kv rest ih =>
    intro acc k h
    rw [alGet] at h
    by_cases hk : kv.1 = k
    · simp [hk] at h
    · rw [if_neg hk] at h
      rw [List.foldl_cons, ih _ _ h, alGet_alSet_ne _ _ (fun hh => hk hh.symm)]

/-- The last binding of a key in `node` wins in `{ id, ...node }`. -/
theorem foldl_alSet_last (node : NodeRecord) :
    ∀ (acc : NodeRecord) (k : String) (v : Val), alGet node.reverse k = some v →
      alGet (node.foldl (fun a kv => alSet a kv.1 kv.2) acc) k = some v := by
  induction node with
  | nil => intro acc k v h; cases h
  | cons kv rest ih =>
    intro acc k v h
    rw [List.reverse_cons, alGet_append] at h
    rw [List.foldl_cons]
    cases hrev : alGet rest.reverse k with
    | some w =>
      rw [hrev] at h
      cases h
      exact ih _ _ _ hrev
    | none =>
      rw [hrev, alGet] at h
      by_cases hk : k = kv.1
      · rw [if_pos hk.symm] at h
        cases h
        have hnone : alGet rest k = none := by
          rw [alGet_eq_none_iff] at hrev ⊢
          simpa using hrev
        rw [foldl_alSet_frame rest _ _ hnone, hk, alGet_alSet_self]
      · rw [if_neg (fun hh => hk hh.symm)] at h
        cases h

/-- C6 fixture before the second `addNode`: node `a` with its assigned
community label. -/
def c6Before : Graph :=
  ((Graph.empty.addNode [("id", Val.str "a"), ("name", Val.str "x")]).map
    Graph.assignCommunities).toOption.getD Graph.empty

/-- C6 fixture after re-adding node `a` with only `id` and `name`. -/
def c6After : Graph :=
  (c6Before.addNode [("id", Val.str "a"), ("name", Val.str "y")]).toOption.getD Graph.empty

/-- C6 counterexample: after `assignCommunities`, node `a` carries
`communityId = "C1"`; re-adding the node with `{id, name}` does not
merge into the stored record but replaces it, dropping the previously
assigned `communityId` (the claim says keys present only in the stored
record remain unchanged). -/
theorem c6_addNode_counterexample :
    alGet ((alGet c6Before.nodeData "a").getD []) "communityId" = some (Val.str "C1") ∧
      alGet ((alGet c6After.nodeData "a").getD []) "communityId" = none := by
  constructor <;> decide

/-- C6 (amended): `addNode` replaces the stored record with
`{ id, ...node }`: new values win on every key of the incoming record,
keys present only in the previously stored record are dropped, a fresh
adjacency entry is created only when the id is new, an existing node's
adjacency is never reset, and other nodes' records are untouched. -/
theorem c6_addNode_replaces (g : Graph) (node : NodeRecord) (id : String) (g2 : Graph)
    (hid : nodeIdOf node = some id) (h : g.addNode node = Except.ok g2) :
    alGet g2.nodeData id = some (storedRecord id node) ∧
      (∀ k v, alGet (storedRecord id node) k = some v →
        k = "id" ∨ ∃ w, alGet node k = some w) ∧
      (∀ k v, alGet node.reverse k = some v → alGet (storedRecord id node) k = some v) ∧
      (∀ x, x ≠ id → alGet g2.nodeData x = alGet g.nodeData x) ∧
      g2.adjacency =
        (if alHas g.adjacency id then g.adjacency else g.adjacency ++ [(id, [])]) := by
  simp only [Graph.addNode, hid] at h
  by_cases h0 : id = ""
  · rw [if_pos h0] at h; cases h
  · rw [if_neg h0] at h
    cases h
    refine ⟨alGet_alSet_self _ _ _, ?_, ?_, ?_, rfl⟩
    · intro k v hk
      rcases foldl_alSet_get_sub node _ k v hk with hn | hacc
      · exact Or.inr hn
      · left
        rw [alGet] at hacc
        by_cases hk2 : "id" = k
        · exact hk2.symm
        · rw [if_neg hk2, alGet] at hacc; cases hacc
    · intro k v hk
      exact foldl_alSet_last node _ k v hk
    · intro x hx
      exact alGet_alSet_ne _ _ hx

/-- C6 witness: re-adding node `a` over the community-labelled record. -/
theorem c6_addNode_replaces_witness :
    nodeIdOf [("id", Val.str "a"), ("name", Val.str "y")] = some "a" ∧
      c6Before.addNode [("id", Val.str "a"), ("name", Val.str "y")] = Except.ok c6After ∧
      (alGet c6After.nodeData "a" =
        some (storedRecord "a" [("id", Val.str "a"), ("name", Val.str "y")]) ∧
        (∀ k v, alGet (storedRecord "a" [("id", Val.str "a"), ("name", Val.str "y")]) k =
          some v → k = "id" ∨ ∃ w, alGet [("id", Val.str "a"), ("name", Val.str "y")] k =
            some w) ∧
        (∀ k v, alGet ([("id", Val.str "a"), ("name", Val.str "y")] : NodeRecord).reverse k =
          some v →
          alGet (storedRecord "a" [("id", Val.str "a"), ("name", Val.str "y")]) k = some v) ∧
        (∀ x, x ≠ "a" → alGet c6After.nodeData x = alGet c6Before.nodeData x) ∧
        c6After.adjacency =
          (if alHas c6Before.adjacency "a" then c6Before.adjacency
           else c6Before.adjacency ++ [("a", [])])) :=
  ⟨by decide, rfl, c6_addNode_replaces c6Before _ "a" c6After (by decide) rfl⟩

/-! ## C7 — relation-label precedence for work credits -/

/-- Membership in the JavaScript `Set` accumulation. -/
theorem mem_foldl_setAdd (ls : List String) :
    ∀ (init : List String) (x : String),
      x ∈ ls.foldl setAdd init ↔ x ∈ init ∨ x ∈ ls := by
  induction ls with
  | nil => intro init x; simp
  | cons a rest ih =>
    intro init x
    rw [List.foldl_cons, ih]
    by_cases ha : init.contains a
    · rw [setAdd, if_pos ha]
      simp only [List.mem_cons]
      constructor
      · rintro (h | h)
        · exact Or.inl h
        · exact Or.inr (Or.inr h)
      · rintro (h | h | h)
        · exact Or.inl h
        · subst h; exact Or.inl (by simpa using ha)
        · exact Or.inr h
    · rw [setAdd, if_neg ha]
      simp only [List.mem_append, List.mem_singleton, List.mem_cons]
      tauto

/-- C7: during work-credit ingestion a song generates exactly one
`addEdge` call per id in the union of its primary-performer, writer,
producer and performer lists, and the relation meta attached to that
call follows the fixed precedence: primary performers, then writers,
then producers, then performer credits, then `"credited"`; an id in
several lists gets only the first matching label. -/
theorem c7_relation_precedence (song : SongCredit) (a : String) :
    ((a ∈ song.artistIds ∨ a ∈ song.writers.getD [] ∨ a ∈ song.producers.getD [] ∨
        a ∈ song.performers.getD []) ↔
      (song.id, a, 1, relationFor song a) ∈ songEdgeCalls song) ∧
      (a ∈ song.artistIds → relationFor song a = "performs") ∧
      (a ∉ song.artistIds → a ∈ song.writers.getD [] → relationFor song a = "writes") ∧
      (a ∉ song.artistIds → a ∉ song.writers.getD [] → a ∈ song.producers.getD [] →
        relationFor song a = "produces") ∧
      (a ∉ song.artistIds → a ∉ song.writers.getD [] → a ∉ song.producers.getD [] →
        a ∈ song.performers.getD [] → relationFor song a = "performs") ∧
      (a ∉ song.artistIds → a ∉ song.writers.getD [] → a ∉ song.producers.getD [] →
        a ∉ song.performers.getD [] → relationFor song a = "credited") := by
  have hmem : a ∈ allCreditedArtists song ↔
      (a ∈ song.artistIds ∨ a ∈ song.writers.getD [] ∨ a ∈ song.producers.getD [] ∨
        a ∈ song.performers.getD []) := by
    rw [allCreditedArtists, mem_foldl_setAdd]
    simp
  refine ⟨?_, ?_, ?_, ?_, ?_, ?_⟩
  · rw [songEdgeCalls, List.mem_map]
    constructor
    · intro h
      exact ⟨a, hmem.mpr h, rfl⟩
    · rintro ⟨x, hx, hx2⟩
      have : x = a := congrArg (fun t => t.2.1) hx2
      subst this
      exact hmem.mp hx
  · intro h; simp [relationFor, h]
  · intro h1 h2; simp [relationFor, h1, h2]
  · intro h1 h2 h3; simp [relationFor, h1, h2, h3]
  · intro h1 h2 h3 h4; simp [relationFor, h1, h2, h3, h4]
  · intro h1 h2 h3 h4; simp [relationFor, h1, h2, h3, h4]

/-! ## `edges()` — dedup-key analysis -/

/-- The Boolean test "this emitted pair has dedup key `k`". -/
def keyEqB (k : String) (p : String × String) : Bool :=
  edgeKey p.1 p.2 == k

/-- Two emitted pairs denote the same unordered pair. -/
def unordEqB (p q : String × String) : Bool :=
  (p.1 == q.1 && p.2 == q.2) || (p.1 == q.2 && p.2 == q.1)

/-- Some adjacency entry produces dedup key `k` during the `edges()`
iteration. -/
def encounterB (adj : List (String × List (String × Int))) (k : String) : Bool :=
  adj.any (fun e => e.2.any (fun bw => edgeKey e.1 bw.1 == k))

theorem alGet_mem {α : Type} (m : List (String × α)) (k : String) (v : α)
    (h : alGet m k = some v) : (k, v) ∈ m := by
  induction m with
  | nil => cases h
  | cons kv rest ih =>
    rw [alGet] at h
    by_cases hk : kv.1 = k
    · rw [if_pos hk] at h
      cases h
      obtain ⟨k1, v1⟩ := kv
      cases hk
      exact List.mem_cons_self _ _
    · exact List.mem_cons_of_mem _ (ih (by rwa [if_neg hk] at h))

/-- One adjacency entry of `edges()`: the seen set afterwards holds `k`
iff it did before or the entry produced `k`, and exactly one pair with
key `k` is appended when `k` was unseen and is produced. -/
theorem edgesInner_spec (a k : String) :
    ∀ (bws : List (String × Int)) (seen : List String) (all : List (String × String)),
      ((k ∈ (edgesInner a bws seen all).1) ↔
        (k ∈ seen ∨ ∃ bw ∈ bws, edgeKey a bw.1 = k)) ∧
      ((edgesInner a bws seen all).2.countP (keyEqB k) =
        all.countP (keyEqB k) +
          (if k ∉ seen ∧ (∃ bw ∈ bws, edgeKey a bw.1 = k) then 1 else 0)) := by
  intro bws
  induction bws with
  | nil =>
    intro seen all
    simp [edgesInner]
  | cons bw rest ih =>
    intro seen all
    rw [edgesInner]
    by_cases hs : edgeKey a bw.1 ∈ seen
    · rw [if_pos (by simpa using hs)]
      obtain ⟨ih1, ih2⟩ := ih seen all
      constructor
      · rw [ih1]
        constructor
        · rintro (h | ⟨bw2, hbw2, hk2⟩)
          · exact Or.inl h
          · exact Or.inr ⟨bw2, List.mem_cons_of_mem _ hbw2, hk2⟩
        · rintro (h | ⟨bw2, hbw2, hk2⟩)
          · exact Or.inl h
          · rcases List.mem_cons.mp hbw2 with hb | hb
            · subst hb
              exact Or.inl (hk2 ▸ hs)
            · exact Or.inr ⟨bw2, hb, hk2⟩
      · rw [ih2]
        by_cases hks : k ∈ seen
        · simp [hks]
        · have hk : edgeKey a bw.1 ≠ k := fun h => hks (h ▸ hs)
          congr 1
          apply if_congr _ rfl rfl
          constructor
          · rintro ⟨h1, bw2, hbw2, hk2⟩
            exact ⟨h1, bw2, List.mem_cons_of_mem _ hbw2, hk2⟩
          · rintro ⟨h1, bw2, hbw2, hk2⟩
            rcases List.mem_cons.mp hbw2 with hb | hb
            · subst hb; exact absurd hk2 hk
            · exact ⟨h1, bw2, hb, hk2⟩
    · rw [if_neg (by simpa using hs)]
      obtain ⟨ih1, ih2⟩ := ih (edgeKey a bw.1 :: seen) (all ++ [(a, bw.1)])
      constructor
      · rw [ih1]
        constructor
        · rintro (h | ⟨bw2, hbw2, hk2⟩)
          · rcases List.mem_cons.mp h with hh | hh
            · exact Or.inr ⟨bw, List.mem_cons_self _ _, hh.symm⟩
            · exact Or.inl hh
          · exact Or.inr ⟨bw2, List.mem_cons_of_mem _ hbw2, hk2⟩
        · rintro (h | ⟨bw2, hbw2, hk2⟩)
          · exact Or.inl (List.mem_cons_of_mem _ h)
          · rcases List.mem_cons.mp hbw2 with hb | hb
            · subst hb
              exact Or.inl (hk2 ▸ List.mem_cons_self _ _)
            · exact Or.inr ⟨bw2, hb, hk2⟩
      · rw [ih2, List.countP_append]
        by_cases hk : edgeKey a bw.1 = k
        · have hsingle : List.countP (keyEqB k) [(a, bw.1)] = 1 := by
            simp [keyEqB, hk]
          rw [hsingle]
          have hleft : ¬ (k ∉ edgeKey a bw.1 :: seen ∧ ∃ bw2 ∈ rest, edgeKey a bw2.1 = k) := by
            rintro ⟨h1, -⟩
            exact h1 (hk ▸ List.mem_cons_self _ _)
          have hright : (k ∉ seen ∧ ∃ bw2 ∈ bw :: rest, edgeKey a bw2.1 = k) := by
            exact ⟨hk ▸ hs, bw, List.mem_cons_self _ _, hk⟩
          rw [if_neg hleft, if_pos hright]
        · have hsingle : List.countP (keyEqB k) [(a, bw.1)] = 0 := by
            simp [keyEqB, hk]
          rw [hsingle]
          congr 1
          apply if_congr _ rfl rfl
          constructor
          · rintro ⟨h1, bw2, hbw2, hk2⟩
            refine ⟨fun hh => h1 (List.mem_cons_of_mem _ hh),
              bw2, List.mem_cons_of_mem _ hbw2, hk2⟩
          · rintro ⟨h1, bw2, hbw2, hk2⟩
            rcases List.mem_cons.mp hbw2 with hb | hb
            · subst hb; exact absurd hk2 hk
            · refine ⟨fun hh => ?_, bw2, hb, hk2⟩
              rcases List.mem_cons.mp hh with hh2 | hh2
              · exact hk hh2.symm
              · exact h1 hh2

/-- Some adjacency entry produces dedup key `k` during the `edges()`
iteration. -/
def Encounter (adj : List (String × List (String × Int))) (k : String) : Prop :=
  ∃ e ∈ adj, ∃ bw ∈ e.2, edgeKey e.1 bw.1 = k

instance encounterDec (adj : List (String × List (String × Int))) (k : String) :
    Decidable (Encounter adj k) :=
  inferInstanceAs (Decidable (∃ e ∈ adj, ∃ bw ∈ e.2, edgeKey e.1 bw.1 = k))

/-- `edges()` emits, for every dedup key `k` not already seen, exactly
one pair with that key when some adjacency entry produces it. -/
theorem edgesOuter_spec (k : String) :
    ∀ (adj : List (String × List (String × Int))) (seen : List String)
      (all : List (String × String)),
      (edgesOuter adj seen all).countP (keyEqB k) =
        all.countP (keyEqB k) +
          (if k ∉ seen ∧ Encounter adj k then 1 else 0) := by
  intro adj
  induction adj with
  | nil =>
    intro seen all
    simp [edgesOuter, Encounter]
  | cons e rest ih =>
    intro seen all
    rw [edgesOuter]
    obtain ⟨h1, h2⟩ := edgesInner_spec e.1 k e.2 seen all
    rw [ih, h2]
    by_cases hks : k ∈ seen
    · have hin : k ∈ (edgesInner e.1 e.2 seen all).1 := h1.mpr (Or.inl hks)
      have hA : ¬ (k ∉ (edgesInner e.1 e.2 seen all).1 ∧ Encounter rest k) :=
        fun h => h.1 hin
      have henc : ¬ (k ∉ seen ∧ Encounter (e :: rest) k) := fun h => h.1 hks
      have henc2 : ¬ (k ∉ seen ∧ ∃ bw ∈ e.2, edgeKey e.1 bw.1 = k) := fun h => h.1 hks
      rw [if_neg hA, if_neg henc, if_neg henc2]
    · by_cases he : ∃ bw ∈ e.2, edgeKey e.1 bw.1 = k
      · have hin : k ∈ (edgesInner e.1 e.2 seen all).1 := h1.mpr (Or.inr he)
        have hA : ¬ (k ∉ (edgesInner e.1 e.2 seen all).1 ∧ Encounter rest k) :=
          fun h => h.1 hin
        have hB : (k ∉ seen ∧ ∃ bw ∈ e.2, edgeKey e.1 bw.1 = k) := ⟨hks, he⟩
        have hC : (k ∉ seen ∧ Encounter (e :: rest) k) :=
          ⟨hks, e, List.mem_cons_self _ _, he⟩
        rw [if_neg hA, if_pos hB, if_pos hC]
      · have hnin : k ∉ (edgesInner e.1 e.2 seen all).1 := by
          rw [h1]
          rintro (h | h)
          · exact hks h
          · exact he h
        have hB : ¬ (k ∉ seen ∧ ∃ bw ∈ e.2, edgeKey e.1 bw.1 = k) := fun h => he h.2
        rw [if_neg hB]
        by_cases hr : Encounter rest k
        · have hC : Encounter (e :: rest) k := by
            obtain ⟨e2, he2, hbw⟩ := hr
            exact ⟨e2, List.mem_cons_of_mem _ he2, hbw⟩
          rw [if_pos (⟨hnin, hr⟩ : _ ∧ _), if_pos (⟨hks, hC⟩ : _ ∧ _)]
        · have hA : ¬ (k ∉ (edgesInner e.1 e.2 seen all).1 ∧ Encounter rest k) :=
            fun h => hr h.2
          have hC : ¬ Encounter (e :: rest) k := by
            rintro ⟨e2, he2, hbw⟩
            rcases List.mem_cons.mp he2 with hh | hh
            · exact he (hh ▸ hbw)
            · exact hr ⟨e2, hh, hbw⟩
          have hD : ¬ (k ∉ seen ∧ Encounter (e :: rest) k) := fun h => hC h.2
          rw [if_neg hA, if_neg hD]

/-- The per-key count of `Graph.edges`: a produced key is emitted on
exactly one pair; nothing else is emitted. -/
theorem edges_countP_key (g : Graph) (k : String) :
    g.edges.countP (keyEqB k) = (if Encounter g.adjacency k then 1 else 0) := by
  rw [Graph.edges, edgesOuter_spec]
  simp

/-- Every emitted pair comes from an adjacency entry. -/
theorem edgesInner_sub (a : String) :
    ∀ (bws : List (String × Int)) (seen : List String) (all : List (String × String)),
      ∀ p ∈ (edgesInner a bws seen all).2,
        p ∈ all ∨ ∃ bw ∈ bws, p = (a, bw.1) := by
  intro bws
  induction bws with
  | nil =>
    intro seen all p hp
    exact Or.inl hp
  | cons bw rest ih =>
    intro seen all p hp
    rw [edgesInner] at hp
    by_cases hs : seen.contains (edgeKey a bw.1) = true
    · rw [if_pos hs] at hp
      rcases ih seen all p hp with h | ⟨bw2, hbw2, hp2⟩
      · exact Or.inl h
      · exact Or.inr ⟨bw2, List.mem_cons_of_mem _ hbw2, hp2⟩
    · rw [if_neg hs] at hp
      rcases ih _ _ p hp with h | ⟨bw2, hbw2, hp2⟩
      · rcases List.mem_append.mp h with h2 | h2
        · exact Or.inl h2
        · exact Or.inr ⟨bw, List.mem_cons_self _ _, by simpa using h2⟩
      · exact Or.inr ⟨bw2, List.mem_cons_of_mem _ hbw2, hp2⟩

theorem edgesOuter_sub :
    ∀ (adj : List (String × List (String × Int))) (seen : List String)
      (all : List (String × String)),
      ∀ p ∈ edgesOuter adj seen all,
        p ∈ all ∨ ∃ e ∈ adj, ∃ bw ∈ e.2, p = (e.1, bw.1) := by
  intro adj
  induction adj with
  | nil =>
    intro seen all p hp
    exact Or.inl hp
  | cons e rest ih =>
    intro seen all p hp
    rw [edgesOuter] at hp
    rcases ih _ _ p hp with h | ⟨e2, he2, hbw⟩
    · rcases edgesInner_sub e.1 e.2 seen all p h with h2 | ⟨bw, hbw, hp2⟩
      · exact Or.inl h2
      · exact Or.inr ⟨e, List.mem_cons_self _ _, bw, hbw, hp2⟩
    · exact Or.inr ⟨e2, List.mem_cons_of_mem _ he2, hbw⟩

theorem edges_from_adjacency (g : Graph) (p : String × String) (hp : p ∈ g.edges) :
    ∃ e ∈ g.adjacency, ∃ bw ∈ e.2, p = (e.1, bw.1) := by
  rcases edgesOuter_sub g.adjacency [] [] p hp with h | h
  · cases h
  · exact h

/-! ## The dedup key: commutativity and collisions -/

theorem edgeKey_comm (a b : String) : edgeKey a b = edgeKey b a := by
  rw [edgeKey, edgeKey]
  rcases lt_trichotomy a b with h | h | h
  · rw [if_pos h, if_neg (asymm h)]
  · subst h; rfl
  · rw [if_neg (asymm h), if_pos h]

/-- Two pairs denoting the same unordered pair of ids. -/
def UnordEq (p q : String × String) : Prop :=
  (p.1 = q.1 ∧ p.2 = q.2) ∨ (p.1 = q.2 ∧ p.2 = q.1)

instance unordEqDec (p q : String × String) : Decidable (UnordEq p q) :=
  inferInstanceAs (Decidable (_ ∨ _))

theorem UnordEq_key {p q : String × String} (h : UnordEq p q) :
    edgeKey p.1 p.2 = edgeKey q.1 q.2 := by
  rcases h with ⟨h1, h2⟩ | ⟨h1, h2⟩
  · rw [h1, h2]
  · rw [h1, h2, edgeKey_comm]

/-- Splitting a `|`-separated concatenation is unambiguous when the left
parts are `|`-free. -/
theorem append_bar_inj :
    ∀ (a : List Char) (c b d : List Char), '|' ∉ a → '|' ∉ c →
      a ++ '|' :: b = c ++ '|' :: d → a = c ∧ b = d := by
  intro a
  induction a with
  | nil =>
    intro c b d _ hc h
    cases c with
    | nil =>
      rw [List.nil_append, List.nil_append] at h
      injection h with _ h2
      exact ⟨rfl, h2⟩
    | cons ch ct =>
      rw [List.nil_append, List.cons_append] at h
      injection h with h1 _
      exact absurd (by rw [h1]; exact List.mem_cons_self _ _) hc
  | cons ah arest ih =>
    intro c b d ha hc h
    cases c with
    | nil =>
      rw [List.cons_append, List.nil_append] at h
      injection h with h1 _
      exact absurd (by rw [← h1]; exact List.mem_cons_self _ _) ha
    | cons ch ct =>
      rw [List.cons_append, List.cons_append] at h
      injection h with h1 h2
      obtain ⟨hac, hbd⟩ := ih ct b d
        (fun hm => ha (List.mem_cons_of_mem _ hm))
        (fun hm => hc (List.mem_cons_of_mem _ hm)) h2
      exact ⟨by rw [h1, hac], hbd⟩

theorem barConcat_data (x y : String) :
    (x ++ "|" ++ y).data = x.data ++ '|' :: y.data := by
  rw [String.data_append, String.data_append, List.append_assoc]
  rfl

/-- For `|`-free ids the dedup key determines the unordered pair. -/
theorem edgeKey_inj (a b c d : String)
    (ha : '|' ∉ a.data) (hb : '|' ∉ b.data) (hc : '|' ∉ c.data) (hd : '|' ∉ d.data)
    (h : edgeKey a b = edgeKey c d) : UnordEq (a, b) (c, d) := by
  rw [edgeKey, edgeKey] at h
  split_ifs at h with h1 h2 h2 <;>
    (have hdd := congrArg String.data h
     rw [barConcat_data, barConcat_data] at hdd)
  · obtain ⟨e1, e2⟩ := append_bar_inj _ _ _ _ ha hc hdd
    exact Or.inl ⟨String.ext e1, String.ext e2⟩
  · obtain ⟨e1, e2⟩ := append_bar_inj _ _ _ _ ha hd hdd
    exact Or.inr ⟨String.ext e1, String.ext e2⟩
  · obtain ⟨e1, e2⟩ := append_bar_inj _ _ _ _ hb hc hdd
    exact Or.inr ⟨String.ext e2, String.ext e1⟩
  · obtain ⟨e1, e2⟩ := append_bar_inj _ _ _ _ hb hd hdd
    exact Or.inl ⟨String.ext e2, String.ext e1⟩

/-- All ids stored in the graph (outer keys and neighbor keys) avoid the
`'|'` separator of the dedup key. -/
def Graph.BarFree (g : Graph) : Prop :=
  (∀ id ∈ g.nodes, ('|' : Char) ∉ id.data) ∧
    ∀ e ∈ g.adjacency, ∀ bw ∈ e.2, ('|' : Char) ∉ bw.1.data

instance barFreeDec (g : Graph) : Decidable g.BarFree :=
  inferInstanceAs (Decidable (_ ∧ _))

/-! ## `edges()` claim-level properties -/

/-- No two entries of `edges()` denote the same unordered pair. -/
theorem edges_pairwise_distinct (g : Graph) :
    List.Pairwise (fun p q => ¬ UnordEq p q) g.edges := by
  have hnodup : (g.edges.map (fun p => edgeKey p.1 p.2)).Nodup := by
    rw [List.nodup_iff_count_le_one]
    intro k
    have : (g.edges.map (fun p => edgeKey p.1 p.2)).count k =
        g.edges.countP (keyEqB k) := by
      rw [List.count, List.countP_map]
      apply List.countP_congr
      intro p _
      simp [keyEqB, Function.comp]
    rw [this, edges_countP_key]
    split <;> omega
  have h2 : List.Pairwise (fun p q : String × String =>
      edgeKey p.1 p.2 ≠ edgeKey q.1 q.2) g.edges := by
    rw [← List.pairwise_map]
    exact hnodup
  exact h2.imp (fun hne hu => hne (UnordEq_key hu))

theorem edges_unord_count_one (g : Graph) (a b : String) (w : Int)
    (hBar : g.BarFree)
    (hab : alGet (alGetD g.adjacency a []) b = some w) :
    g.edges.countP (fun p => decide (UnordEq p (a, b))) = 1 := by
  have hkey : ∃ inner, alGet g.adjacency a = some inner := by
    cases hg : alGet g.adjacency a with
    | none =>
      rw [alGetD, hg] at hab
      cases hab
    | some inner => exact ⟨inner, rfl⟩
  obtain ⟨inner, hinner⟩ := hkey
  have hinner2 : alGet inner b = some w := by
    rw [alGetD, hinner] at hab
    exact hab
  have hmemE : (a, inner) ∈ g.adjacency := alGet_mem _ _ _ hinner
  have hmemB : (b, w) ∈ inner := alGet_mem _ _ _ hinner2
  have henc : Encounter g.adjacency (edgeKey a b) :=
    ⟨(a, inner), hmemE, (b, w), hmemB, rfl⟩
  have hbar_a : ('|' : Char) ∉ a.data :=
    hBar.1 a (List.mem_map.mpr ⟨(a, inner), hmemE, rfl⟩)
  have hbar_b : ('|' : Char) ∉ b.data := hBar.2 (a, inner) hmemE (b, w) hmemB
  have hcong : ∀ p ∈ g.edges,
      (decide (UnordEq p (a, b)) = true ↔ keyEqB (edgeKey a b) p = true) := by
    intro p hp
    obtain ⟨e, he, bw, hbw, rfl⟩ := edges_from_adjacency g p hp
    have hbar_x : ('|' : Char) ∉ e.1.data := hBar.1 e.1 (List.mem_map.mpr ⟨e, he, rfl⟩)
    have hbar_y : ('|' : Char) ∉ bw.1.data := hBar.2 e he bw hbw
    constructor
    · intro hu
      have hu2 : UnordEq (e.1, bw.1) (a, b) := of_decide_eq_true hu
      exact beq_iff_eq.mpr (UnordEq_key hu2)
    · intro hk
      have hk2 : edgeKey e.1 bw.1 = edgeKey a b := beq_iff_eq.mp hk
      exact decide_eq_true (edgeKey_inj _ _ _ _ hbar_x hbar_y hbar_a hbar_b hk2)
  rw [List.countP_congr hcong, edges_countP_key, if_pos henc]

/-! ## `addEdge` structure -/

/-- The two adjacency writes of `addEdge` over a base adjacency in which
both endpoints already have entries. -/
def setBoth (base : List (String × List (String × Int))) (a b : String) (w : Int) :
    List (String × List (String × Int)) :=
  let adj1 := alSet base a (alSet (alGetD base a []) b w)
  alSet adj1 b (alSet (alGetD adj1 b []) a w)

theorem alSet_length {α : Type} (m : List (String × α)) (k : String) (v : α) :
    (alSet m k v).length = if alHas m k then m.length else m.length + 1 := by
  induction m with
  | nil => simp [alSet, alHas, alGet]
  | cons kv rest ih =>
    by_cases h : kv.1 = k
    · simp [alSet, alHas, alGet, h]
    · simp only [alSet, h, if_false, List.length_cons, alHas, alGet, ih]
      rw [alHas] at ih
      by_cases h2 : (alGet rest k).isSome <;> simp [h, h2, ih]

theorem alGetD_append_deflt {α : Type} (m : List (String × α)) (c x : String) (d : α) :
    alGetD (m ++ [(c, d)]) x d = alGetD m x d := by
  rw [alGetD, alGetD, alGet_append]
  cases hm : alGet m x with
  | some v => rfl
  | none =>
    by_cases hc : c = x <;> simp [alGet, hc]

theorem setBoth_get_ba (base : List (String × List (String × Int))) (a b : String)
    (w : Int) : alGet (alGetD (setBoth base a b w) b []) a = some w := by
  rw [setBoth]
  rw [alGetD, alGet_alSet_self, Option.getD_some, alGet_alSet_self]

theorem setBoth_get_ab (base : List (String × List (String × Int))) (a b : String)
    (w : Int) : alGet (alGetD (setBoth base a b w) a []) b = some w := by
  by_cases hab : a = b
  · subst hab
    rw [setBoth, alGetD, alGet_alSet_self, Option.getD_some, alGet_alSet_self]
  · rw [setBoth, alGetD, alGet_alSet_ne _ _ hab, alGet_alSet_self, Option.getD_some,
      alGet_alSet_self]

/-- The stub record always yields its id. -/
theorem nodeIdOf_stubNode (c : String) : nodeIdOf (stubNode c) = some c := by
  simp [nodeIdOf, stubNode, alGet]

/-- The endpoint-stubbing step of `addEdge` leaves every default-`[]`
adjacency lookup unchanged (a created entry is empty). -/
theorem addEdge_pre_adj (g : Graph) (c : String) (g1 : Graph)
    (h : (if alHas g.adjacency c then Except.ok g else g.addNode (stubNode c)) =
      Except.ok g1) :
    ∀ x, alGetD g1.adjacency x [] = alGetD g.adjacency x [] := by
  by_cases hc : alHas g.adjacency c
  · rw [if_pos hc] at h
    cases h
    intro x
    rfl
  · rw [if_neg hc] at h
    simp only [Graph.addNode, nodeIdOf_stubNode] at h
    by_cases hc0 : c = ""
    · rw [if_pos hc0] at h
      cases h
    · rw [if_neg hc0, if_neg hc] at h
      cases h
      intro x
      exact alGetD_append_deflt _ _ _ _

/-- A successful `addEdge` rewrites the adjacency as `setBoth` over a
base that answers every default-`[]` lookup exactly as the original
adjacency (the stubbed entries are empty). -/
theorem addEdge_ok_adj (g : Graph) (a b : String) (w : Int) (g2 : Graph)
    (h : g.addEdge a b w = Except.ok g2) :
    ∃ base : List (String × List (String × Int)),
      g2.adjacency = setBoth base a b w ∧
      (∀ x, alGetD base x [] = alGetD g.adjacency x []) := by
  rw [Graph.addEdge] at h
  split at h
  · cases h
  · rename_i g1 heq1
    split at h
    · cases h
    · rename_i gm heqm
      cases h
      refine ⟨gm.adjacency, rfl, fun x => ?_⟩
      rw [addEdge_pre_adj g1 b gm heqm x, addEdge_pre_adj g a g1 heq1 x]

/-! ## C3 — symmetric adjacency, overwrite, edges() dedup -/

/-- C3 counterexample fixture: ids containing the `'|'` dedup separator.
The pairs {x, y|z} and {x|y, z} share the dedup key `"x|y|z"`. -/
def c3BadGraph : Graph :=
  buildEdges [("x", "y|z", 1), ("x|y", "z", 1), ("x|y", "z", 2)]

theorem c3BadGraph_adjacency :
    c3BadGraph.adjacency =
      [("x", [("y|z", 1)]), ("y|z", [("x", 1)]), ("x|y", [("z", 2)]), ("z", [("x|y", 2)])] := by
  decide

/-- C3 counterexample: after re-submitting the edge (x|y, z) with a new
weight, the weight is overwritten, but `edges()` does not emit the
unordered pair (x|y, z) at all — its dedup key `"x|y|z"` collides with
the key of the earlier pair (x, y|z), so the claim's "emits that
unordered pair exactly once" fails. -/
theorem c3_edges_counterexample :
    alGet (alGetD c3BadGraph.adjacency "x|y" []) "z" = some 2 ∧
      c3BadGraph.edges.countP (fun p => decide (UnordEq p ("x|y", "z"))) = 0 := by
  constructor
  · decide
  · have hlt1 : ("x" : String) < "y|z" := String.lt_iff_toList_lt.mpr (by decide)
    have hlt3 : ("x|y" : String) < "z" := String.lt_iff_toList_lt.mpr (by decide)
    have hk1 : edgeKey "x" "y|z" = "x|y|z" := by rw [edgeKey, if_pos hlt1]; rfl
    have hk2 : edgeKey "y|z" "x" = "x|y|z" := by rw [edgeKey, if_neg (asymm hlt1)]; rfl
    have hk3 : edgeKey "x|y" "z" = "x|y|z" := by rw [edgeKey, if_pos hlt3]; rfl
    have hk4 : edgeKey "z" "x|y" = "x|y|z" := by rw [edgeKey, if_neg (asymm hlt3)]; rfl
    have hedges : c3BadGraph.edges = [("x", "y|z")] := by
      rw [Graph.edges, c3BadGraph_adjacency]
      simp only [edgesOuter, edgesInner, hk1, hk2, hk3, hk4]
      decide
    rw [hedges]
    decide

/-- C3 (amended): after `addEdge(a, b, w)` the adjacency is symmetric
with identical weight `w`; re-submitting the pair with a different
weight overwrites it (last write wins); `edges()` never emits the same
unordered pair twice; and — provided no stored id contains the `'|'`
dedup separator, without which distinct pairs can collide on their
dedup key — `edges()` emits the unordered pair (a, b) exactly once. -/
theorem c3_addEdge_symmetric (g : Graph) (a b : String) (w : Int) (g2 : Graph)
    (h : g.addEdge a b w = Except.ok g2) :
    b ∈ g2.neighbors a ∧ a ∈ g2.neighbors b ∧
      alGet (alGetD g2.adjacency a []) b = some w ∧
      alGet (alGetD g2.adjacency b []) a = some w ∧
      (∀ w2 g3, g2.addEdge a b w2 = Except.ok g3 →
        alGet (alGetD g3.adjacency a []) b = some w2 ∧
        alGet (alGetD g3.adjacency b []) a = some w2) ∧
      List.Pairwise (fun p q => ¬ UnordEq p q) g2.edges ∧
      (g2.BarFree → g2.edges.countP (fun p => decide (UnordEq p (a, b))) = 1) := by
  obtain ⟨base, hadj, -⟩ := addEdge_ok_adj g a b w g2 h
  have h3 : alGet (alGetD g2.adjacency a []) b = some w := by
    rw [hadj]; exact setBoth_get_ab base a b w
  have h4 : alGet (alGetD g2.adjacency b []) a = some w := by
    rw [hadj]; exact setBoth_get_ba base a b w
  refine ⟨?_, ?_, h3, h4, ?_, edges_pairwise_distinct g2, ?_⟩
  · exact List.mem_map.mpr ⟨(b, w), alGet_mem _ _ _ h3, rfl⟩
  · exact List.mem_map.mpr ⟨(a, w), alGet_mem _ _ _ h4, rfl⟩
  · intro w2 g3 h2
    obtain ⟨base2, hadj2, -⟩ := addEdge_ok_adj g2 a b w2 g3 h2
    exact ⟨by rw [hadj2]; exact setBoth_get_ab base2 a b w2,
      by rw [hadj2]; exact setBoth_get_ba base2 a b w2⟩
  · intro hbar
    exact edges_unord_count_one g2 a b w hbar h3

/-- C3 witness graph: the single edge A–B with weight 2. -/
def c3WitnessGraph : Graph := buildEdges [("A", "B", 2)]

/-- C3 witness: the amended claim at the concrete edge (A, B, 2). -/
theorem c3_addEdge_symmetric_witness :
    Graph.empty.addEdge "A" "B" 2 = Except.ok c3WitnessGraph ∧
      ("B" ∈ c3WitnessGraph.neighbors "A" ∧ "A" ∈ c3WitnessGraph.neighbors "B" ∧
        alGet (alGetD c3WitnessGraph.adjacency "A" []) "B" = some 2 ∧
        alGet (alGetD c3WitnessGraph.adjacency "B" []) "A" = some 2 ∧
        (∀ w2 g3, c3WitnessGraph.addEdge "A" "B" w2 = Except.ok g3 →
          alGet (alGetD g3.adjacency "A" []) "B" = some w2 ∧
          alGet (alGetD g3.adjacency "B" []) "A" = some w2) ∧
        List.Pairwise (fun p q => ¬ UnordEq p q) c3WitnessGraph.edges ∧
        (c3WitnessGraph.BarFree →
          c3WitnessGraph.edges.countP (fun p => decide (UnordEq p ("A", "B"))) = 1)) :=
  ⟨rfl, c3_addEdge_symmetric Graph.empty "A" "B" 2 c3WitnessGraph rfl⟩

/-! ## C10 — self-loops -/

/-- C10 counterexample fixture: a self-loop on the id `p|q` together
with the colliding pair (p, q|p|q). -/
def c10BadGraph : Graph :=
  buildEdges [("p", "q|p|q", 1), ("p|q", "p|q", 1)]

theorem c10BadGraph_adjacency :
    c10BadGraph.adjacency =
      [("p", [("q|p|q", 1)]), ("q|p|q", [("p", 1)]), ("p|q", [("p|q", 1)])] := by
  decide

/-- C10 counterexample: the self-loop on `p|q` is stored in the
adjacency, but `edges()` never emits the unordered pair (p|q, p|q):
its dedup key `"p|q|p|q"` collides with the key of the pair
(p, q|p|q), so the claim's "emits (a, a) exactly once" fails. -/
theorem c10_edges_counterexample :
    "p|q" ∈ c10BadGraph.neighbors "p|q" ∧
      c10BadGraph.edges.countP (fun p => decide (UnordEq p ("p|q", "p|q"))) = 0 := by
  constructor
  · decide
  · have hlt1 : ("p" : String) < "q|p|q" := String.lt_iff_toList_lt.mpr (by decide)
    have hk1 : edgeKey "p" "q|p|q" = "p|q|p|q" := by rw [edgeKey, if_pos hlt1]; rfl
    have hk2 : edgeKey "q|p|q" "p" = "p|q|p|q" := by rw [edgeKey, if_neg (asymm hlt1)]; rfl
    have hk3 : edgeKey "p|q" "p|q" = "p|q|p|q" := by rw [edgeKey, if_neg (lt_irrefl _)]; rfl
    have hedges : c10BadGraph.edges = [("p", "q|p|q")] := by
      rw [Graph.edges, c10BadGraph_adjacency]
      simp only [edgesOuter, edgesInner, hk1, hk2, hk3]
      decide
    rw [hedges]
    decide

/-- C10 (amended): `addEdge(a, a, w)` silently accepts the self-loop:
`a` appears among its own neighbors, the loop occupies exactly one
adjacency entry (so `degree` grows by one only when the loop is new),
and — provided no stored id contains the `'|'` dedup separator —
`edges()` emits the unordered pair (a, a) exactly once. -/
theorem c10_selfLoop (g : Graph) (a : String) (w : Int) (g2 : Graph)
    (hWF : ∀ e ∈ g.adjacency, (e.2.map Prod.fst).Nodup)
    (h : g.addEdge a a w = Except.ok g2) :
    a ∈ g2.neighbors a ∧
      (g2.neighbors a).count a = 1 ∧
      g2.degree a = (if a ∈ g.neighbors a then g.degree a else g.degree a + 1) ∧
      (g2.BarFree → g2.edges.countP (fun p => decide (UnordEq p (a, a))) = 1) := by
  obtain ⟨base, hadj, hbase⟩ := addEdge_ok_adj g a a w g2 h
  have hi : alGetD g2.adjacency a [] = alSet (alSet (alGetD base a []) a w) a w := by
    rw [hadj, setBoth, alGetD, alGet_alSet_self, Option.getD_some]
    congr 1
    rw [alGetD, alGet_alSet_self, Option.getD_some]
  have hi0 : alGetD base a [] = alGetD g.adjacency a [] := hbase a
  have hnbrs : g.neighbors a = (alGetD base a []).map Prod.fst := by
    rw [Graph.neighbors, hi0]
  have hnd : ((alGetD base a []).map Prod.fst).Nodup := by
    rw [hi0, alGetD]
    cases hg : alGet g.adjacency a with
    | none => simp
    | some inner => exact hWF (a, inner) (alGet_mem _ _ _ hg)
  have hhas1 : alHas (alSet (alGetD base a []) a w) a = true := by
    rw [alHas, alGet_alSet_self]
    rfl
  have hkeys : (alSet (alSet (alGetD base a []) a w) a w).map Prod.fst =
      (if a ∈ g.neighbors a then (alGetD base a []).map Prod.fst
       else (alGetD base a []).map Prod.fst ++ [a]) := by
    rw [alSet_keys, if_pos hhas1, alSet_keys]
    by_cases hm : a ∈ g.neighbors a
    · rw [if_pos ((alHas_iff_mem_keys _ _).mpr (hnbrs ▸ hm)), if_pos hm]
    · rw [if_neg (fun hh => hm (hnbrs ▸ (alHas_iff_mem_keys _ _).mp hh)), if_neg hm]
  have hhas2 : alHas (alSet (alSet (alGetD base a []) a w) a w) a = true := by
    rw [alHas, alGet_alSet_self]
    rfl
  refine ⟨?_, ?_, ?_, ?_⟩
  · rw [Graph.neighbors, hi]
    exact (alHas_iff_mem_keys _ _).mp hhas2
  · rw [Graph.neighbors, hi, hkeys]
    by_cases hm : a ∈ g.neighbors a
    · rw [if_pos hm]
      exact List.count_eq_one_of_mem hnd (hnbrs ▸ hm)
    · rw [if_neg hm]
      rw [List.count_append]
      have h0 : ((alGetD base a []).map Prod.fst).count a = 0 := by
        rw [List.count_eq_zero]
        exact fun hh => hm (hnbrs ▸ hh)
      rw [h0]
      simp
  · rw [Graph.degree, hi, alSet_length, if_pos hhas1, alSet_length, Graph.degree]
    have hlen : (alGetD base a []).length = (alGetD g.adjacency a []).length := by rw [hi0]
    by_cases hm : a ∈ g.neighbors a
    · rw [if_pos ((alHas_iff_mem_keys _ _).mpr (hnbrs ▸ hm)), if_pos hm, hlen]
    · rw [if_neg (fun hh => hm (hnbrs ▸ (alHas_iff_mem_keys _ _).mp hh)), if_neg hm, hlen]
  · intro hbar
    refine edges_unord_count_one g2 a a w hbar ?_
    rw [hi, alGet_alSet_self]

/-- C10 witness graph: a single self-loop on A with weight 3. -/
def c10WitnessGraph : Graph := buildEdges [("A", "A", 3)]

/-- C10 witness: the amended claim at the concrete self-loop (A, A, 3). -/
theorem c10_selfLoop_witness :
    (∀ e ∈ Graph.empty.adjacency, (e.2.map Prod.fst).Nodup) ∧
      Graph.empty.addEdge "A" "A" 3 = Except.ok c10WitnessGraph ∧
      ("A" ∈ c10WitnessGraph.neighbors "A" ∧
        (c10WitnessGraph.neighbors "A").count "A" = 1 ∧
        c10WitnessGraph.degree "A" =
          (if "A" ∈ Graph.empty.neighbors "A" then Graph.empty.degree "A"
           else Graph.empty.degree "A" + 1) ∧
        (c10WitnessGraph.BarFree →
          c10WitnessGraph.edges.countP (fun p => decide (UnordEq p ("A", "A"))) = 1)) :=
  by
  have hWF : ∀ e ∈ Graph.empty.adjacency, (e.2.map Prod.fst).Nodup := by
    intro e he
    cases he
  exact ⟨hWF, rfl, c10_selfLoop Graph.empty "A" 3 c10WitnessGraph hWF rfl⟩

/-! ## C2 — connected components partition the node set -/

/-- Every neighbor key occurs in `allNbrKeys`. -/
theorem neighbors_sub_allNbrKeys (g : Graph) (node x : String)
    (hx : x ∈ g.neighbors node) : x ∈ allNbrKeys g := by
  rw [Graph.neighbors, alGetD] at hx
  cases hg : alGet g.adjacency node with
  | none => rw [hg] at hx; cases hx
  | some inner =>
    rw [hg, Option.getD_some] at hx
    exact List.mem_flatten.mpr
      ⟨inner.map Prod.fst, List.mem_map.mpr ⟨(node, inner), alGet_mem _ _ _ hg, rfl⟩, hx⟩

/-- With a neighbor-closed adjacency, every neighbor is itself a node. -/
theorem neighbors_sub_nodes (g : Graph)
    (hclosed : ∀ e ∈ g.adjacency, ∀ bw ∈ e.2, alHas g.adjacency bw.1 = true)
    (node x : String) (hx : x ∈ g.neighbors node) : x ∈ g.nodes := by
  rw [Graph.neighbors, alGetD] at hx
  cases hg : alGet g.adjacency node with
  | none => rw [hg] at hx; cases hx
  | some inner =>
    rw [hg, Option.getD_some] at hx
    obtain ⟨bw, hbw, rfl⟩ := List.mem_map.mp hx
    exact (alHas_iff_mem_keys _ _).mp
      (hclosed (node, inner) (alGet_mem _ _ _ hg) bw hbw)

/-- A duplicate-free list contained in another list is no longer. -/
theorem nodup_length_le (l m : List String) (hnd : l.Nodup)
    (hsub : ∀ x ∈ l, x ∈ m) : l.length ≤ m.length := by
  calc l.length = l.toFinset.card := (List.toFinset_card_of_nodup hnd).symm
    _ ≤ m.toFinset.card := by
        apply Finset.card_le_card
        intro x hx
        rw [List.mem_toFinset] at hx ⊢
        exact hsub x hx
    _ ≤ m.length := List.toFinset_card_le m

/-- The DFS push loop prepends exactly the fresh neighbors to the stack
and appends them to the visited set. -/
theorem dfsPush_spec (nbrs : List String) :
    ∀ (stack visited : List String),
      ∃ added,
        (dfsPush nbrs stack visited).1 = added.reverse ++ stack ∧
        (dfsPush nbrs stack visited).2 = visited ++ added ∧
        added.Nodup ∧
        (∀ x ∈ added, x ∈ nbrs ∧ x ∉ visited) := by
  induction nbrs with
  | nil =>
    intro stack visited
    exact ⟨[], rfl, by simp [dfsPush], List.nodup_nil, by simp⟩
  | cons nbr rest ih =>
    intro stack visited
    rw [dfsPush]
    by_cases hn : nbr ∈ visited
    · rw [if_pos (by simpa using hn)]
      obtain ⟨added, h1, h2, h3, h4⟩ := ih stack visited
      exact ⟨added, h1, h2, h3,
        fun x hx => ⟨List.mem_cons_of_mem _ ((h4 x hx).1), (h4 x hx).2⟩⟩
    · rw [if_neg (by simpa using hn)]
      obtain ⟨added, h1, h2, h3, h4⟩ := ih (nbr :: stack) (visited ++ [nbr])
      refine ⟨nbr :: added, ?_, ?_, ?_, ?_⟩
      · rw [h1, List.reverse_cons, List.append_assoc]
        rfl
      · rw [h2, List.append_assoc]
        rfl
      · refine List.nodup_cons.mpr ⟨fun hmem => ?_, h3⟩
        exact (h4 nbr hmem).2 (List.mem_append_right _ (List.mem_singleton.mpr rfl))
      · intro x hx
        rcases List.mem_cons.mp hx with hh | hh
        · subst hh
          exact ⟨List.mem_cons_self _ _, hn⟩
        · exact ⟨List.mem_cons_of_mem _ ((h4 x hh).1),
            fun hv => (h4 x hh).2 (List.mem_append_left _ hv)⟩

/-- Full behaviour of the DFS stack loop under its invariants: the final
visited set is the old one plus the new component, the component is
duplicate-free, and its members are the old component, popped stack
entries and freshly visited nodes. -/
theorem dfsLoop_spec (g : Graph) :
    ∀ (fuel : Nat) (stack visited comp : List String),
      stack.length + (g.nodes.length + (allNbrKeys g).length + 1 - visited.length) < fuel →
      visited.Nodup →
      (∀ x ∈ visited, x ∈ g.nodes ++ allNbrKeys g) →
      (∀ x ∈ stack, x ∈ visited) →
      stack.Nodup →
      (∀ x ∈ stack, x ∉ comp) →
      (∀ x ∈ comp, x ∈ visited) →
      comp.Nodup →
      ((dfsLoop g fuel stack visited comp).1.Nodup ∧
       (∀ x ∈ (dfsLoop g fuel stack visited comp).1, x ∈ g.nodes ++ allNbrKeys g) ∧
       (∀ x ∈ visited, x ∈ (dfsLoop g fuel stack visited comp).1) ∧
       (∀ x ∈ (dfsLoop g fuel stack visited comp).1,
         x ∈ visited ∨ x ∈ (dfsLoop g fuel stack visited comp).2) ∧
       (dfsLoop g fuel stack visited comp).2.Nodup ∧
       (∀ x ∈ (dfsLoop g fuel stack visited comp).2,
         x ∈ comp ∨ x ∈ stack ∨ x ∉ visited) ∧
       (∀ x ∈ (dfsLoop g fuel stack visited comp).2,
         x ∈ (dfsLoop g fuel stack visited comp).1) ∧
       (∀ x ∈ comp, x ∈ (dfsLoop g fuel stack visited comp).2) ∧
       (∀ x ∈ stack, x ∈ (dfsLoop g fuel stack visited comp).2)) := by
  intro fuel
  induction fuel with
  | zero =>
    intro stack visited comp hfuel
    omega
  | succ f ih =>
    intro stack visited comp hfuel hvnd hvin hsv hsnd hsc hcv hcnd
    match stack with
    | [] =>
      rw [dfsLoop]
      exact ⟨hvnd, hvin, fun x hx => hx, fun x hx => Or.inl hx, hcnd,
        fun x hx => Or.inl hx, hcv, fun x hx => hx, fun x hx => by cases hx⟩
    | node :: rest =>
      rw [dfsLoop]
      obtain ⟨added, hst2, hvis2, handnd, hadded⟩ := dfsPush_spec (g.neighbors node) rest visited
      rw [hst2, hvis2]
      have hnodev : node ∈ visited := hsv node (List.mem_cons_self _ _)
      have hvnd2 : (visited ++ added).Nodup := by
        rw [List.nodup_append]
        exact ⟨hvnd, handnd, fun x hx hx2 => (hadded x hx2).2 hx⟩
      have hvin2 : ∀ x ∈ visited ++ added, x ∈ g.nodes ++ allNbrKeys g := by
        intro x hx
        rcases List.mem_append.mp hx with hh | hh
        · exact hvin x hh
        · exact List.mem_append_right _
            (neighbors_sub_allNbrKeys g node x (hadded x hh).1)
      have hlen2 : visited.length + added.length ≤
          g.nodes.length + (allNbrKeys g).length + 1 := by
        have := nodup_length_le (visited ++ added) (g.nodes ++ allNbrKeys g) hvnd2 hvin2
        simp only [List.length_append] at this
        omega
      have hfuel2 : (added.reverse ++ rest).length +
          (g.nodes.length + (allNbrKeys g).length + 1 - (visited ++ added).length) < f := by
        simp only [List.length_append, List.length_reverse, List.length_cons] at hfuel ⊢
        omega
      have hsv2 : ∀ x ∈ added.reverse ++ rest, x ∈ visited ++ added := by
        intro x hx
        rcases List.mem_append.mp hx with hh | hh
        · exact List.mem_append_right _ (List.mem_reverse.mp hh)
        · exact List.mem_append_left _ (hsv x (List.mem_cons_of_mem _ hh))
      have hsnd2 : (added.reverse ++ rest).Nodup := by
        rw [List.nodup_append]
        refine ⟨List.nodup_reverse.mpr handnd, (List.nodup_cons.mp hsnd).2, ?_⟩
        intro x hx hx2
        exact (hadded x (List.mem_reverse.mp hx)).2
          (hsv x (List.mem_cons_of_mem _ hx2))
      have hsc2 : ∀ x ∈ added.reverse ++ rest, x ∉ comp ++ [node] := by
        intro x hx hmem
        rcases List.mem_append.mp hmem with hh | hh
        · rcases List.mem_append.mp hx with hh2 | hh2
          · exact (hadded x (List.mem_reverse.mp hh2)).2 (hcv x hh)
          · exact hsc x (List.mem_cons_of_mem _ hh2) hh
        · rw [List.mem_singleton] at hh
          subst hh
          rcases List.mem_append.mp hx with hh2 | hh2
          · exact (hadded x (List.mem_reverse.mp hh2)).2 hnodev
          · exact (List.nodup_cons.mp hsnd).1 hh2
      have hcv2 : ∀ x ∈ comp ++ [node], x ∈ visited ++ added := by
        intro x hx
        rcases List.mem_append.mp hx with hh | hh
        · exact List.mem_append_left _ (hcv x hh)
        · rw [List.mem_singleton] at hh
          subst hh
          exact List.mem_append_left _ hnodev
      have hcnd2 : (comp ++ [node]).Nodup := by
        rw [List.nodup_append]
        exact ⟨hcnd, List.nodup_singleton _,
          fun x hx hx2 => hsc node (List.mem_cons_self _ _)
            ((List.mem_singleton.mp hx2) ▸ hx)⟩
      obtain ⟨i1, i2, i3, i4, i5, i6, i7, i8, i9⟩ :=
        ih (added.reverse ++ rest) (visited ++ added) (comp ++ [node])
          hfuel2 hvnd2 hvin2 hsv2 hsnd2 hsc2 hcv2 hcnd2
      refine ⟨i1, i2, ?_, ?_, i5, ?_, i7, ?_, ?_⟩
      · intro x hx
        exact i3 x (List.mem_append_left _ hx)
      · intro x hx
        rcases i4 x hx with hh | hh
        · rcases List.mem_append.mp hh with hh2 | hh2
          · exact Or.inl hh2
          · exact Or.inr (i9 x (List.mem_append_left _ (List.mem_reverse.mpr hh2)))
        · exact Or.inr hh
      · intro x hx
        rcases i6 x hx with hh | hh | hh
        · rcases List.mem_append.mp hh with hh2 | hh2
          · exact Or.inl hh2
          · rw [List.mem_singleton] at hh2
            subst hh2
            exact Or.inr (Or.inl (List.mem_cons_self _ _))
        · rcases List.mem_append.mp hh with hh2 | hh2
          · exact Or.inr (Or.inr (hadded x (List.mem_reverse.mp hh2)).2)
          · exact Or.inr (Or.inl (List.mem_cons_of_mem _ hh2))
        · exact Or.inr (Or.inr (fun hv => hh (List.mem_append_left _ hv)))
      · intro x hx
        exact i8 x (List.mem_append_left _ hx)
      · intro x hx
        rcases List.mem_cons.mp hx with hh | hh
        · subst hh
          exact i8 x (List.mem_append_right _ (List.mem_singleton.mpr rfl))
        · exact i9 x (List.mem_append_right _ hh)

/-- With a neighbor-closed adjacency, every neighbor key is a node. -/
theorem allNbrKeys_sub_nodes (g : Graph)
    (hclosed : ∀ e ∈ g.adjacency, ∀ bw ∈ e.2, alHas g.adjacency bw.1 = true)
    (x : String) (hx : x ∈ allNbrKeys g) : x ∈ g.nodes := by
  rw [allNbrKeys] at hx
  obtain ⟨l, hl, hxl⟩ := List.mem_flatten.mp hx
  obtain ⟨e, he, rfl⟩ := List.mem_map.mp hl
  obtain ⟨bw, hbw, rfl⟩ := List.mem_map.mp hxl
  exact (alHas_iff_mem_keys _ _).mp (hclosed e he bw hbw)

/-- The outer loop of `connectedComponents`: the visited set always
equals the union of the emitted components, the flattened components
stay duplicate-free and inside the node set, and every processed start
ends up visited. -/
theorem ccOuter_spec (g : Graph)
    (hclosed : ∀ e ∈ g.adjacency, ∀ bw ∈ e.2, alHas g.adjacency bw.1 = true) :
    ∀ (starts visited : List String) (comps : List (List String)),
      visited.Nodup →
      (∀ x ∈ visited, x ∈ g.nodes) →
      (∀ x, x ∈ visited ↔ x ∈ comps.flatten) →
      comps.flatten.Nodup →
      (∀ x ∈ starts, x ∈ g.nodes) →
      ((ccOuter g starts visited comps).2.flatten.Nodup ∧
       (∀ x, x ∈ (ccOuter g starts visited comps).1 ↔
         x ∈ (ccOuter g starts visited comps).2.flatten) ∧
       (∀ x ∈ (ccOuter g starts visited comps).1, x ∈ g.nodes) ∧
       (∀ x ∈ visited, x ∈ (ccOuter g starts visited comps).1) ∧
       (∀ x ∈ starts, x ∈ (ccOuter g starts visited comps).1)) := by
  intro starts
  induction starts with
  | nil =>
    intro visited comps hvnd hvnodes hflat hfnd _
    rw [ccOuter]
    exact ⟨hfnd, hflat, hvnodes, fun x hx => hx, fun x hx => by cases hx⟩
  | cons start rest ih =>
    intro visited comps hvnd hvnodes hflat hfnd hstarts
    rw [ccOuter]
    by_cases hs : start ∈ visited
    · rw [if_pos (by simpa using hs)]
      obtain ⟨j1, j2, j3, j4, j5⟩ := ih visited comps hvnd hvnodes hflat hfnd
        (fun x hx => hstarts x (List.mem_cons_of_mem _ hx))
      refine ⟨j1, j2, j3, j4, ?_⟩
      intro x hx
      rcases List.mem_cons.mp hx with hh | hh
      · subst hh
        exact j4 x hs
      · exact j5 x hh
    · rw [if_neg (by simpa using hs)]
      have hstart : start ∈ g.nodes := hstarts start (List.mem_cons_self _ _)
      have hvlen : visited.length ≤ g.nodes.length + (allNbrKeys g).length := by
        have := nodup_length_le visited (g.nodes ++ allNbrKeys g) hvnd
          (fun x hx => List.mem_append_left _ (hvnodes x hx))
        simpa using this
      have hvnd1 : (visited ++ [start]).Nodup := by
        rw [List.nodup_append]
        exact ⟨hvnd, List.nodup_singleton _,
          fun x hx hx2 => hs ((List.mem_singleton.mp hx2) ▸ hx)⟩
      obtain ⟨d1, d2, d3, d4, d5, d6, d7, d8, d9⟩ :=
        dfsLoop_spec g (dfsFuel g) [start] (visited ++ [start]) []
          (by
            rw [dfsFuel]
            simp only [List.length_cons, List.length_nil, List.length_append,
              List.length_singleton]
            omega)
          hvnd1
          (by
            intro x hx
            rcases List.mem_append.mp hx with hh | hh
            · exact List.mem_append_left _ (hvnodes x hh)
            · exact List.mem_append_left _ ((List.mem_singleton.mp hh) ▸ hstart))
          (fun x hx => List.mem_append_right _ hx)
          (List.nodup_singleton _)
          (fun x _ hx => by cases hx)
          (fun x hx => by cases hx)
          List.nodup_nil
      set rd := dfsLoop g (dfsFuel g) [start] (visited ++ [start]) [] with hrd
      have hvnodes2 : ∀ x ∈ rd.1, x ∈ g.nodes := by
        intro x hx
        rcases List.mem_append.mp (d2 x hx) with hh | hh
        · exact hh
        · exact allNbrKeys_sub_nodes g hclosed x hh
      have hstartcomp : start ∈ rd.2 := d9 start (List.mem_cons_self _ _)
      have hflat2 : ∀ x, x ∈ rd.1 ↔ x ∈ (comps ++ [rd.2]).flatten := by
        intro x
        rw [List.flatten_append]
        simp only [List.flatten, List.append_nil]
        constructor
        · intro hx
          rcases d4 x hx with hh | hh
          · rcases List.mem_append.mp hh with hh2 | hh2
            · exact List.mem_append_left _ ((hflat x).mp hh2)
            · exact List.mem_append_right _ ((List.mem_singleton.mp hh2) ▸ hstartcomp)
          · exact List.mem_append_right _ hh
        · intro hx
          rcases List.mem_append.mp hx with hh | hh
          · exact d3 x (List.mem_append_left _ ((hflat x).mpr hh))
          · exact d7 x hh
      have hfnd2 : (comps ++ [rd.2]).flatten.Nodup := by
        rw [List.flatten_append]
        simp only [List.flatten, List.append_nil]
        rw [List.nodup_append]
        refine ⟨hfnd, d5, ?_⟩
        intro x hx hx2
        have hxv : x ∈ visited := (hflat x).mpr hx
        rcases d6 x hx2 with hh | hh | hh
        · cases hh
        · rw [List.mem_singleton] at hh
          exact hs (hh ▸ hxv)
        · exact hh (List.mem_append_left _ hxv)
      obtain ⟨j1, j2, j3, j4, j5⟩ := ih rd.1 (comps ++ [rd.2]) d1 hvnodes2 hflat2 hfnd2
        (fun x hx => hstarts x (List.mem_cons_of_mem _ hx))
      refine ⟨j1, j2, j3, ?_, ?_⟩
      · intro x hx
        exact j4 x (d3 x (List.mem_append_left _ hx))
      · intro x hx
        rcases List.mem_cons.mp hx with hh | hh
        · subst hh
          exact j4 x (d3 x (List.mem_append_right _ (List.mem_singleton.mpr rfl)))
        · exact j5 x hh

/-- Each member list of a duplicate-free flattened family is itself
duplicate-free. -/
theorem flatten_nodup_each (comps : List (List String))
    (h : comps.flatten.Nodup) : ∀ c ∈ comps, c.Nodup := by
  induction comps with
  | nil => intro c hc; cases hc
  | cons c0 rest ih =>
    intro c hc
    rw [List.flatten_cons, List.nodup_append] at h
    rcases List.mem_cons.mp hc with hh | hh
    · exact hh ▸ h.1
    · exact ih h.2.1 c hh

/-- In a duplicate-free flattened family, a present element lies in
exactly one member list. -/
theorem countP_one_of_flatten_nodup (comps : List (List String)) (id : String)
    (hnd : comps.flatten.Nodup) (hmem : id ∈ comps.flatten) :
    comps.countP (fun c => decide (id ∈ c)) = 1 := by
  induction comps with
  | nil => cases hmem
  | cons c0 rest ih =>
    rw [List.flatten_cons] at hnd hmem
    rw [List.nodup_append] at hnd
    rw [List.countP_cons]
    by_cases hc : id ∈ c0
    · have hnr : id ∉ rest.flatten := fun hh => hnd.2.2 hc hh
      have h0 : rest.countP (fun c => decide (id ∈ c)) = 0 := by
        rw [List.countP_eq_zero]
        intro c hcr hdec
        exact hnr (List.mem_flatten.mpr ⟨c, hcr, of_decide_eq_true hdec⟩)
      simp [h0, hc]
    · have hmr : id ∈ rest.flatten := by
        rcases List.mem_append.mp hmem with hh | hh
        · exact absurd hh hc
        · exact hh
      simp [ih hnd.2.1 hmr, hc]

/-- C2: `connectedComponents()` partitions `nodes()`: every node id lies
in exactly one component, no component has duplicates, and the union of
the components is exactly the node set.  The hypothesis is the
adjacency closure `addNode`/`addEdge` maintain: every neighbor key has
an adjacency entry. -/
theorem c2_connectedComponents_partition (g : Graph)
    (hclosed : ∀ e ∈ g.adjacency, ∀ bw ∈ e.2, alHas g.adjacency bw.1 = true) :
    (∀ id ∈ g.nodes, g.connectedComponents.countP (fun c => decide (id ∈ c)) = 1) ∧
      (∀ c ∈ g.connectedComponents, c.Nodup) ∧
      (∀ x, x ∈ g.connectedComponents.flatten ↔ x ∈ g.nodes) := by
  obtain ⟨f1, f2, f3, -, f5⟩ := ccOuter_spec g hclosed g.nodes [] []
    List.nodup_nil (fun x hx => by cases hx) (fun x => by simp) List.nodup_nil
    (fun x hx => hx)
  have hcc : g.connectedComponents = (ccOuter g g.nodes [] []).2 := rfl
  have hiff : ∀ x, x ∈ g.connectedComponents.flatten ↔ x ∈ g.nodes := by
    intro x
    rw [hcc]
    constructor
    · intro hx
      exact f3 x ((f2 x).mpr hx)
    · intro hx
      exact (f2 x).mp (f5 x hx)
  refine ⟨?_, ?_, hiff⟩
  · intro id hid
    rw [hcc]
    exact countP_one_of_flatten_nodup _ id f1 ((f2 id).mp (f5 id hid))
  · intro c hc
    rw [hcc] at hc
    exact flatten_nodup_each _ f1 c hc

/-- C2 witness: the concrete path graph A–B–C–D. -/
theorem c2_connectedComponents_partition_witness :
    (∀ e ∈ demoPathGraph.adjacency, ∀ bw ∈ e.2,
      alHas demoPathGraph.adjacency bw.1 = true) ∧
      ((∀ id ∈ demoPathGraph.nodes,
        demoPathGraph.connectedComponents.countP (fun c => decide (id ∈ c)) = 1) ∧
        (∀ c ∈ demoPathGraph.connectedComponents, c.Nodup) ∧
        (∀ x, x ∈ demoPathGraph.connectedComponents.flatten ↔
          x ∈ demoPathGraph.nodes)) := by
  have hclosed : ∀ e ∈ demoPathGraph.adjacency, ∀ bw ∈ e.2,
      alHas demoPathGraph.adjacency bw.1 = true := by decide
  exact ⟨hclosed, c2_connectedComponents_partition demoPathGraph hclosed⟩

/-! ## C1 / C8 — BFS correctness: chains and distances -/

theorem chainB_nil (g : Graph) : g.chainB [] = false := rfl

theorem chainB_singleton (g : Graph) (x : String) : g.chainB [x] = true := rfl

theorem chainB_cons_cons (g : Graph) (x y : String) (rest : List String) :
    g.chainB (x :: y :: rest) = ((g.neighbors x).contains y && g.chainB (y :: rest)) := rfl

theorem chainB_ne_nil {g : Graph} {p : List String} (h : g.chainB p = true) : p ≠ [] := by
  intro hp
  subst hp
  rw [chainB_nil] at h
  cases h

theorem head?_append_left {α : Type} {l : List α} (l2 : List α) {x : α}
    (h : l.head? = some x) : (l ++ l2).head? = some x := by
  cases l with
  | nil => cases h
  | cons a rest => exact h

theorem getLast?_cons_of_some {α : Type} {l : List α} (a : α) {x : α}
    (h : l.getLast? = some x) : (a :: l).getLast? = some x := by
  cases l with
  | nil => cases h
  | cons b rest => rw [List.getLast?_cons_cons]; exact h

/-- Appending an adjacent node to the end of a chain keeps it a chain. -/
theorem chainB_extend (g : Graph) :
    ∀ (p : List String) (u v : String), g.chainB p = true → p.getLast? = some u →
      v ∈ g.neighbors u → g.chainB (p ++ [v]) = true := by
  intro p
  induction p with
  | nil => intro u v h; cases h
  | cons x rest ih =>
    intro u v hch hlast hnbr
    cases rest with
    | nil =>
      rw [List.getLast?_singleton, Option.some_inj] at hlast
      subst hlast
      rw [List.cons_append, List.nil_append, chainB_cons_cons]
      simp only [Bool.and_eq_true]
      exact ⟨by simpa using hnbr, rfl⟩
    | cons y rest2 =>
      rw [chainB_cons_cons, Bool.and_eq_true] at hch
      rw [List.getLast?_cons_cons] at hlast
      rw [List.cons_append, List.cons_append, chainB_cons_cons]
      simp only [Bool.and_eq_true]
      rw [← List.cons_append]
      exact ⟨hch.1, ih u v hch.2 hlast hnbr⟩

/-- Prepending a node adjacent to the head of a chain keeps it a chain. -/
theorem chainB_cons_of_head (g : Graph) (x : String) :
    ∀ (q : List String) (v : String), v ∈ g.neighbors x → g.chainB q = true →
      q.head? = some v → g.chainB (x :: q) = true := by
  intro q
  cases q with
  | nil => intro v _ h; cases h
  | cons y rest =>
    intro v hnbr hch hhead
    rw [List.head?_cons, Option.some_inj] at hhead
    subst hhead
    rw [chainB_cons_cons, Bool.and_eq_true]
    exact ⟨by simpa using hnbr, hch⟩

/-- There is a path of exactly `n` edges from `s` to `t`. -/
def ReachLen (g : Graph) (s t : String) (n : Nat) : Prop :=
  ∃ p, g.IsPathFT s t p ∧ p.length = n + 1

theorem ReachLen_refl (g : Graph) (s : String) : ReachLen g s s 0 :=
  ⟨[s], ⟨rfl, rfl, rfl⟩, rfl⟩

theorem ReachLen_step (g : Graph) (s u v : String) (n : Nat)
    (h : ReachLen g s u n) (hnbr : v ∈ g.neighbors u) : ReachLen g s v (n + 1) := by
  obtain ⟨p, ⟨hh, hl, hc⟩, hlen⟩ := h
  refine ⟨p ++ [v], ⟨?_, ?_, chainB_extend g p u v hc hl hnbr⟩, ?_⟩
  · exact head?_append_left _ hh
  · exact List.getLast?_concat _
  · rw [List.length_append, hlen]
    rfl

theorem connected_iff_reachLen (g : Graph) (s t : String) :
    g.Connected s t ↔ ∃ n, ReachLen g s t n := by
  constructor
  · rintro ⟨p, hp⟩
    have hne : p ≠ [] := chainB_ne_nil hp.2.2
    refine ⟨p.length - 1, p, hp, ?_⟩
    have : 1 ≤ p.length := List.length_pos.mpr hne
    omega
  · rintro ⟨n, p, hp, -⟩
    exact ⟨p, hp⟩

/-- A path from a visited node to an unvisited node splits at a node of
`Q`: with the closure "every fully processed visited node has visited
neighbors", the first visited-to-unvisited step must leave from a node
still in `Q`. -/
theorem frontier_split (g : Graph) (visited Q : List String)
    (hQ4 : ∀ v ∈ visited, v ∉ Q → ∀ w ∈ g.neighbors v, w ∈ visited) :
    ∀ (p : List String) (a w : String), g.chainB p = true → p.head? = some a →
      p.getLast? = some w → a ∈ visited → w ∉ visited →
      ∃ u q1 q2, u ∈ Q ∧ u ∈ visited ∧
        g.chainB q1 = true ∧ q1.head? = some a ∧ q1.getLast? = some u ∧
        g.chainB q2 = true ∧ q2.head? = some u ∧ q2.getLast? = some w ∧
        q1.length + q2.length = p.length + 1 ∧ 2 ≤ q2.length := by
  intro p
  induction p with
  | nil => intro a w h; cases h
  | cons x rest ih =>
    intro a w hch hhead hlast hav hwv
    rw [List.head?_cons, Option.some_inj] at hhead
    subst hhead
    cases rest with
    | nil =>
      rw [List.getLast?_singleton, Option.some_inj] at hlast
      subst hlast
      exact absurd hav hwv
    | cons y rest2 =>
      rw [chainB_cons_cons, Bool.and_eq_true] at hch
      rw [List.getLast?_cons_cons] at hlast
      by_cases haQ : x ∈ Q
      · refine ⟨x, [x], x :: y :: rest2, haQ, hav, rfl, rfl, rfl,
          ?_, rfl, ?_, ?_, ?_⟩
        · rw [chainB_cons_cons, Bool.and_eq_true]
          exact hch
        · rw [List.getLast?_cons_cons]
          exact hlast
        · simp only [List.length_singleton, List.length_cons, List.length_nil]
          omega
        · simp only [List.length_singleton, List.length_cons, List.length_nil]
          omega
      · have hyv : y ∈ visited :=
          hQ4 x hav haQ y (by simpa using hch.1)
        obtain ⟨u, q1, q2, hu1, hu2, hq1c, hq1h, hq1l, hq2c, hq2h, hq2l, hlen, hq2len⟩ :=
          ih y w hch.2 rfl hlast hyv hwv
        refine ⟨u, x :: q1, q2, hu1, hu2, ?_, rfl, ?_, hq2c, hq2h, hq2l, ?_, hq2len⟩
        · exact chainB_cons_of_head g x q1 y (by simpa using hch.1) hq1c hq1h
        · exact getLast?_cons_of_some x hq1l
        · simp only [List.length_cons] at hlen ⊢
          omega

/-- Behaviour of one neighbor scan of the BFS: on `found`, the parent
map gained the freshly discovered nodes and the target, all children of
`current`; on `next`, the fresh discoveries `Δ` were appended to both
the visited set and the enqueue list, and all scanned neighbors are now
visited. -/
theorem bfsScan_spec (g : Graph) (current target : String) :
    ∀ (nbrs visited : List String) (parent : List (String × String))
      (added : List String),
      (∀ x ∈ nbrs, x ∈ g.neighbors current) →
      (∀ x v, alGet parent x = some v → x ∈ visited) →
      (match bfsScan current target nbrs visited parent added with
       | .found parent2 =>
           target ∉ visited ∧ target ∈ g.neighbors current ∧
           ∃ Δ : List String, Δ.Nodup ∧
             (∀ x ∈ Δ, x ∈ g.neighbors current ∧ x ∉ visited ∧ x ≠ target) ∧
             alGet parent2 target = some current ∧
             (∀ x ∈ Δ, alGet parent2 x = some current) ∧
             (∀ v, v ∉ Δ → v ≠ target → alGet parent2 v = alGet parent v) ∧
             parent2.length = parent.length + Δ.length + 1 ∧
             (∀ x v, alGet parent2 x = some v → x ∈ visited ∨ x ∈ Δ ∨ x = target)
       | .next visited2 parent2 added2 =>
           ∃ Δ : List String, visited2 = visited ++ Δ ∧ added2 = added ++ Δ ∧ Δ.Nodup ∧
             (∀ x ∈ Δ, x ∈ g.neighbors current ∧ x ∉ visited ∧ x ≠ target) ∧
             (∀ x ∈ Δ, alGet parent2 x = some current) ∧
             (∀ v, v ∉ Δ → alGet parent2 v = alGet parent v) ∧
             parent2.length = parent.length + Δ.length ∧
             (∀ x v, alGet parent2 x = some v → x ∈ visited ∨ x ∈ Δ) ∧
             (∀ w ∈ nbrs, w ∈ visited ++ Δ)) := by
  intro nbrs
  induction nbrs with
  | nil =>
    intro visited parent added _ hdom
    rw [bfsScan]
    refine ⟨[], by simp, by simp, List.nodup_nil, by simp, by simp,
      fun v _ => rfl, by simp, ?_, by simp⟩
    intro x v h
    exact Or.inl (hdom x v h)
  | cons nbr rest ih =>
    intro visited parent added hsub hdom
    rw [bfsScan]
    by_cases hv : nbr ∈ visited
    · rw [if_pos (by simpa using hv)]
      have IH := ih visited parent added
        (fun x hx => hsub x (List.mem_cons_of_mem _ hx)) hdom
      cases hres : bfsScan current target rest visited parent added with
      | found p2 =>
        rw [hres] at IH
        exact IH
      | next v2 p2 a2 =>
        rw [hres] at IH
        obtain ⟨Δ, e1, e2, e3, e4, e5, e6, e7, e8, e9⟩ := IH
        refine ⟨Δ, e1, e2, e3, e4, e5, e6, e7, e8, ?_⟩
        intro w hw
        rcases List.mem_cons.mp hw with hh | hh
        · subst hh
          exact List.mem_append_left _ hv
        · exact e9 w hh
    · rw [if_neg (by simpa using hv)]
      by_cases ht : nbr = target
      · rw [if_pos ht]
        subst ht
        have hfresh : alHas parent nbr = false := by
          rw [alHas]
          cases hp : alGet parent nbr with
          | none => rfl
          | some v => exact absurd (hdom nbr v hp) hv
        refine ⟨hv, hsub nbr (List.mem_cons_self _ _), [], List.nodup_nil,
          by simp, alGet_alSet_self _ _ _, by simp, ?_, ?_, ?_⟩
        · intro v _ hvt
          exact alGet_alSet_ne _ _ hvt
        · rw [alSet_length, if_neg (by simp [hfresh])]
          rfl
        · intro x v h
          by_cases hx : x = nbr
          · exact Or.inr (Or.inr hx)
          · rw [alGet_alSet_ne _ _ hx] at h
            exact Or.inl (hdom x v h)
      · rw [if_neg ht]
        have hdom2 : ∀ x v, alGet (alSet parent nbr current) x = some v →
            x ∈ visited ++ [nbr] := by
          intro x v h
          by_cases hx : x = nbr
          · exact List.mem_append_right _ (List.mem_singleton.mpr hx)
          · rw [alGet_alSet_ne _ _ hx] at h
            exact List.mem_append_left _ (hdom x v h)
        have hfresh : alHas parent nbr = false := by
          rw [alHas]
          cases hp : alGet parent nbr with
          | none => rfl
          | some v => exact absurd (hdom nbr v hp) hv
        have hplen : (alSet parent nbr current).length = parent.length + 1 := by
          rw [alSet_length, if_neg (by simp [hfresh])]
        have IH := ih (visited ++ [nbr]) (alSet parent nbr current) (added ++ [nbr])
          (fun x hx => hsub x (List.mem_cons_of_mem _ hx)) hdom2
        cases hres : bfsScan current target rest (visited ++ [nbr])
            (alSet parent nbr current) (added ++ [nbr]) with
        | found p2 =>
          rw [hres] at IH
          obtain ⟨f0, f1, Δ, e3, e4, e5, e6, e7, e8, e9⟩ := IH
          have hnbrΔ : nbr ∉ Δ := fun hh =>
            (e4 nbr hh).2.1 (List.mem_append_right _ (List.mem_singleton.mpr rfl))
          refine ⟨fun hh => f0 (List.mem_append_left _ hh), f1,
            nbr :: Δ, List.nodup_cons.mpr ⟨hnbrΔ, e3⟩, ?_, e5, ?_, ?_, ?_, ?_⟩
          · intro x hx
            rcases List.mem_cons.mp hx with hh | hh
            · subst hh
              exact ⟨hsub x (List.mem_cons_self _ _), hv, ht⟩
            · exact ⟨(e4 x hh).1,
                fun hvx => (e4 x hh).2.1 (List.mem_append_left _ hvx),
                (e4 x hh).2.2⟩
          · intro x hx
            rcases List.mem_cons.mp hx with hh | hh
            · subst hh
              rw [e7 x hnbrΔ ht, alGet_alSet_self]
            · exact e6 x hh
          · intro v hvm hvt
            have hvn : v ≠ nbr := fun hh => hvm (hh ▸ List.mem_cons_self _ _)
            have hvΔ : v ∉ Δ := fun hh => hvm (List.mem_cons_of_mem _ hh)
            rw [e7 v hvΔ hvt, alGet_alSet_ne _ _ hvn]
          · rw [e8, hplen, List.length_cons]
            omega
          · intro x v h
            rcases e9 x v h with hh | hh | hh
            · rcases List.mem_append.mp hh with hh2 | hh2
              · exact Or.inl hh2
              · exact Or.inr (Or.inl ((List.mem_singleton.mp hh2) ▸
                  List.mem_cons_self _ _))
            · exact Or.inr (Or.inl (List.mem_cons_of_mem _ hh))
            · exact Or.inr (Or.inr hh)
        | next v2 p2 a2 =>
          rw [hres] at IH
          obtain ⟨Δ, e1, e2, e3, e4, e5, e6, e7, e8, e9⟩ := IH
          have hnbrΔ : nbr ∉ Δ := fun hh =>
            (e4 nbr hh).2.1 (List.mem_append_right _ (List.mem_singleton.mpr rfl))
          refine ⟨nbr :: Δ, ?_, ?_, List.nodup_cons.mpr ⟨hnbrΔ, e3⟩, ?_, ?_, ?_, ?_, ?_, ?_⟩
          · rw [e1, List.append_assoc]
            rfl
          · rw [e2, List.append_assoc]
            rfl
          · intro x hx
            rcases List.mem_cons.mp hx with hh | hh
            · subst hh
              exact ⟨hsub x (List.mem_cons_self _ _), hv, ht⟩
            · exact ⟨(e4 x hh).1,
                fun hvx => (e4 x hh).2.1 (List.mem_append_left _ hvx),
                (e4 x hh).2.2⟩
          · intro x hx
            rcases List.mem_cons.mp hx with hh | hh
            · subst hh
              rw [e6 x hnbrΔ, alGet_alSet_self]
            · exact e5 x hh
          · intro v hvm
            have hvn : v ≠ nbr := fun hh => hvm (hh ▸ List.mem_cons_self _ _)
            have hvΔ : v ∉ Δ := fun hh => hvm (List.mem_cons_of_mem _ hh)
            rw [e6 v hvΔ, alGet_alSet_ne _ _ hvn]
          · rw [e7, hplen, List.length_cons]
            omega
          · intro x v h
            rcases e8 x v h with hh | hh
            · rcases List.mem_append.mp hh with hh2 | hh2
              · exact Or.inl hh2
              · exact Or.inr ((List.mem_singleton.mp hh2) ▸ List.mem_cons_self _ _)
            · exact Or.inr (List.mem_cons_of_mem _ hh)
          · intro w hw
            rcases List.mem_cons.mp hw with hh | hh
            · subst hh
              exact List.mem_append_right _ (List.mem_cons_self _ _)
            · have := e9 w hh
              rw [List.append_assoc] at this
              exact this

/-- What a successful BFS guarantees about the returned parent map: a
depth function certifying a parent chain from the target back to the
source along adjacency edges, whose target depth is the exact shortest
distance, and which the reconstruction fuel bound dominates. -/
def FoundSpec (g : Graph) (src target : String) (parent2 : List (String × String)) : Prop :=
  ∃ d2 : String → Nat, ∃ visited2 : List String,
    src ∈ visited2 ∧ d2 src = 0 ∧ target ∈ visited2 ∧ target ≠ src ∧
    (∀ v ∈ visited2, v ≠ src → ∃ u, alGet parent2 v = some u ∧ u ∈ visited2 ∧
      v ∈ g.neighbors u ∧ d2 v = d2 u + 1) ∧
    (∀ v ∈ visited2, d2 v ≤ parent2.length) ∧
    ReachLen g src target (d2 target) ∧
    (∀ n, ReachLen g src target n → d2 target ≤ n)

theorem pairwise_of_all {α : Type} {R : α → α → Prop} :
    ∀ {l : List α}, (∀ a ∈ l, ∀ b ∈ l, R a b) → l.Pairwise R := by
  intro l
  induction l with
  | nil => intro _; exact List.Pairwise.nil
  | cons a rest ih =>
    intro h
    exact List.Pairwise.cons
      (fun b hb => h a (List.mem_cons_self _ _) b (List.mem_cons_of_mem _ hb))
      (ih (fun x hx y hy =>
        h x (List.mem_cons_of_mem _ hx) y (List.mem_cons_of_mem _ hy)))

theorem pairwise_mono_mem {α : Type} {R S : α → α → Prop} :
    ∀ {l : List α}, (∀ a ∈ l, ∀ b ∈ l, R a b → S a b) → l.Pairwise R → l.Pairwise S := by
  intro l
  induction l with
  | nil => intro _ _; exact List.Pairwise.nil
  | cons a rest ih =>
    intro h hp
    obtain ⟨h1, h2⟩ := List.pairwise_cons.mp hp
    exact List.Pairwise.cons
      (fun b hb => h a (List.mem_cons_self _ _) b (List.mem_cons_of_mem _ hb) (h1 b hb))
      (ih (fun x hx y hy =>
        h x (List.mem_cons_of_mem _ hx) y (List.mem_cons_of_mem _ hy)) h2)

/-- Any path reaching an unvisited node is at least one edge longer than
the depth of the queue front: BFS never discovers a node early. -/
theorem bfs_unvisited_bound (g : Graph) (src current : String)
    (qrest visited : List String) (d : String → Nat)
    (hsrc : src ∈ visited)
    (hI5 : ∀ v ∈ visited, ∀ n, ReachLen g src v n → d v ≤ n)
    (hQ2 : List.Pairwise (fun u v => d u ≤ d v) (current :: qrest))
    (hQ4 : ∀ v ∈ visited, v ∉ current :: qrest → ∀ w ∈ g.neighbors v, w ∈ visited)
    (hcur : current ∈ visited) :
    ∀ w n, w ∉ visited → ReachLen g src w n → d current + 1 ≤ n := by
  rintro w n hw ⟨p, hp, hlen⟩
  obtain ⟨u, q1, q2, hu1, hu2, hq1c, hq1h, hq1l, hq2c, hq2h, hq2l, hlensum, hq2len⟩ :=
    frontier_split g visited (current :: qrest) hQ4 p src w hp.2.2 hp.1 hp.2.1 hsrc hw
  have hq1pos : 1 ≤ q1.length := List.length_pos.mpr (chainB_ne_nil hq1c)
  have hdu : d u ≤ q1.length - 1 :=
    hI5 u hu2 _ ⟨q1, ⟨hq1h, hq1l, hq1c⟩, by omega⟩
  have hcu : d current ≤ d u := by
    rcases List.mem_cons.mp hu1 with hh | hh
    · subst hh
      exact le_refl _
    · exact (List.pairwise_cons.mp hQ2).1 u hh
  rw [hlen] at hlensum
  omega

/-- Full correctness of the BFS queue loop.  Under the breadth-first
invariants (visited nodes carry their exact shortest distance `d`, the
queue is sorted by `d` with spread at most one, fully processed nodes
have visited neighbors), the loop either returns `none` — and then the
target is unreachable — or returns a parent map satisfying `FoundSpec`. -/
theorem bfsLoop_spec (g : Graph) (src target : String) :
    ∀ (fuel : Nat) (queue visited : List String) (parent : List (String × String))
      (d : String → Nat),
      queue.length + ((allNbrKeys g).length + 1 - visited.length) < fuel →
      src ∈ visited → d src = 0 →
      visited.Nodup →
      (∀ v ∈ visited, v = src ∨ v ∈ allNbrKeys g) →
      (∀ v ∈ visited, ReachLen g src v (d v)) →
      (∀ v ∈ visited, ∀ n, ReachLen g src v n → d v ≤ n) →
      (∀ v ∈ visited, v ≠ src → ∃ u, alGet parent v = some u ∧ u ∈ visited ∧
        v ∈ g.neighbors u ∧ d v = d u + 1) →
      (∀ x v, alGet parent x = some v → x ∈ visited) →
      (∀ v ∈ visited, d v ≤ parent.length) →
      (∀ u ∈ queue, u ∈ visited) →
      List.Pairwise (fun u v => d u ≤ d v) queue →
      (∀ u ∈ queue, ∀ v ∈ queue, d v ≤ d u + 1) →
      (∀ v ∈ visited, v ∉ queue → ∀ w ∈ g.neighbors v, w ∈ visited) →
      target ∉ visited →
      (match bfsLoop g target fuel queue visited parent with
       | none => ∀ n, ¬ ReachLen g src target n
       | some parent2 => FoundSpec g src target parent2) := by
  intro fuel
  induction fuel with
  | zero =>
    intro queue visited parent d hfuel
    omega
  | succ f ih =>
    intro queue visited parent d hfuel hsrc hd0 hI2 hI3 hI4 hI5 hI6 hI7 hI8 hQ1 hQ2 hQ3
      hQ4 htv
    match queue with
    | [] =>
      rw [bfsLoop]
      rintro n ⟨p, hp, hlen⟩
      obtain ⟨u, q1, q2, hu1, -⟩ :=
        frontier_split g visited [] hQ4 p src target hp.2.2 hp.1 hp.2.1 hsrc htv
      cases hu1
    | current :: qrest =>
      rw [bfsLoop]
      have hcur : current ∈ visited := hQ1 current (List.mem_cons_self _ _)
      have hUB : ∀ w n, w ∉ visited → ReachLen g src w n → d current + 1 ≤ n :=
        bfs_unvisited_bound g src current qrest visited d hsrc hI5 hQ2 hQ4 hcur
      have hscan := bfsScan_spec g current target (g.neighbors current) visited parent []
        (fun x hx => hx) hI7
      cases hres : bfsScan current target (g.neighbors current) visited parent [] with
      | found parent2 =>
        rw [hres] at hscan
        obtain ⟨f0, f1, Δ, e3, e4, e5, e6, e7, e8, e9⟩ := hscan
        have htΔ : target ∉ Δ := fun hh => (e4 target hh).2.2 rfl
        have hsrcΔ : src ∉ Δ := fun hh => (e4 src hh).2.1 hsrc
        have hsrct : target ≠ src := fun hh => f0 (hh ▸ hsrc)
        have hcurΔ : current ∉ Δ := fun hh => (e4 current hh).2.1 hcur
        have hcurt : current ≠ target := fun hh => f0 (hh ▸ hcur)
        refine ⟨fun v => if v ∈ Δ ∨ v = target then d current + 1 else d v,
          visited ++ Δ ++ [target], ?_, ?_, ?_, hsrct, ?_, ?_, ?_, ?_⟩
        · exact List.mem_append_left _ (List.mem_append_left _ hsrc)
        · dsimp only
          rw [if_neg (by push_neg; exact ⟨hsrcΔ, Ne.symm hsrct⟩)]
          exact hd0
        · exact List.mem_append_right _ (List.mem_singleton.mpr rfl)
        · intro v hv hvs
          dsimp only
          rcases List.mem_append.mp hv with hh | hh
          · rcases List.mem_append.mp hh with hh2 | hh2
            · have hvt : v ≠ target := fun he => f0 (he ▸ hh2)
              have hvΔ : v ∉ Δ := fun he => (e4 v he).2.1 hh2
              obtain ⟨u, hu1, hu2, hu3, hu4⟩ := hI6 v hh2 hvs
              have hut : u ≠ target := fun he => f0 (he ▸ hu2)
              have huΔ : u ∉ Δ := fun he => (e4 u he).2.1 hu2
              refine ⟨u, ?_, List.mem_append_left _ (List.mem_append_left _ hu2),
                hu3, ?_⟩
              · rw [e7 v hvΔ hvt]
                exact hu1
              · rw [if_neg (by push_neg; exact ⟨hvΔ, hvt⟩),
                  if_neg (by push_neg; exact ⟨huΔ, hut⟩)]
                exact hu4
            · refine ⟨current, e6 v hh2,
                List.mem_append_left _ (List.mem_append_left _ hcur),
                (e4 v hh2).1, ?_⟩
              rw [if_pos (Or.inl hh2),
                if_neg (by push_neg; exact ⟨hcurΔ, hcurt⟩)]
          · rw [List.mem_singleton] at hh
            subst hh
            refine ⟨current, e5,
              List.mem_append_left _ (List.mem_append_left _ hcur), f1, ?_⟩
            rw [if_pos (Or.inr rfl),
              if_neg (by push_neg; exact ⟨hcurΔ, hcurt⟩)]
        · intro v hv
          dsimp only
          rw [e8]
          by_cases hcase : v ∈ Δ ∨ v = target
          · rw [if_pos hcase]
            have := hI8 current hcur
            omega
          · rw [if_neg hcase]
            rcases List.mem_append.mp hv with hh | hh
            · rcases List.mem_append.mp hh with hh2 | hh2
              · have := hI8 v hh2
                omega
              · exact absurd (Or.inl hh2) hcase
            · exact absurd (Or.inr (List.mem_singleton.mp hh)) hcase
        · dsimp only
          rw [if_pos (Or.inr rfl)]
          exact ReachLen_step g src current target (d current) (hI4 current hcur) f1
        · intro n hn
          dsimp only
          rw [if_pos (Or.inr rfl)]
          exact hUB target n f0 hn
      | next visited2 parent2 added =>
        rw [hres] at hscan
        obtain ⟨Δ, e1, e2, e3, e4, e5, e6, e7, e8, e9⟩ := hscan
        rw [List.nil_append] at e2
        subst e1
        have hhead : ∀ v ∈ qrest, d current ≤ d v := (List.pairwise_cons.mp hQ2).1
        have hΔfresh : ∀ x ∈ Δ, x ∉ visited := fun x hx => (e4 x hx).2.1
        have hΔnbr : ∀ x ∈ Δ, x ∈ g.neighbors current := fun x hx => (e4 x hx).1
        have hvnd2 : (visited ++ Δ).Nodup := by
          rw [List.nodup_append]
          exact ⟨hI2, e3, fun x hx hx2 => hΔfresh x hx2 hx⟩
        have hlen2 : visited.length + Δ.length ≤ (allNbrKeys g).length + 1 := by
          have hsub2 : ∀ x ∈ visited ++ Δ, x ∈ src :: allNbrKeys g := by
            intro x hx
            rcases List.mem_append.mp hx with hh | hh
            · rcases hI3 x hh with hh2 | hh2
              · exact hh2 ▸ List.mem_cons_self _ _
              · exact List.mem_cons_of_mem _ hh2
            · exact List.mem_cons_of_mem _
                (neighbors_sub_allNbrKeys g current x (hΔnbr x hh))
          have := nodup_length_le (visited ++ Δ) (src :: allNbrKeys g) hvnd2 hsub2
          simp only [List.length_append, List.length_cons] at this
          omega
        have hΔd : ∀ x ∈ visited, x ∉ Δ := fun x hx hx2 => hΔfresh x hx2 hx
        have happly := ih (qrest ++ Δ) (visited ++ Δ) parent2
          (fun v => if v ∈ Δ then d current + 1 else d v)
          (by
            simp only [List.length_append, List.length_cons] at hfuel ⊢
            omega)
          (List.mem_append_left _ hsrc)
          (by dsimp only; rw [if_neg (hΔd src hsrc)]; exact hd0)
          hvnd2
          (by
            intro v hv
            rcases List.mem_append.mp hv with hh | hh
            · exact hI3 v hh
            · exact Or.inr (neighbors_sub_allNbrKeys g current v (hΔnbr v hh)))
          (by
            intro v hv
            dsimp only
            rcases List.mem_append.mp hv with hh | hh
            · rw [if_neg (hΔd v hh)]
              exact hI4 v hh
            · rw [if_pos hh]
              exact ReachLen_step g src current v (d current) (hI4 current hcur)
                (hΔnbr v hh))
          (by
            intro v hv n hn
            dsimp only
            rcases List.mem_append.mp hv with hh | hh
            · rw [if_neg (hΔd v hh)]
              exact hI5 v hh n hn
            · rw [if_pos hh]
              exact hUB v n (hΔfresh v hh) hn)
          (by
            intro v hv hvs
            dsimp only
            rcases List.mem_append.mp hv with hh | hh
            · obtain ⟨u, hu1, hu2, hu3, hu4⟩ := hI6 v hh hvs
              refine ⟨u, ?_, List.mem_append_left _ hu2, hu3, ?_⟩
              · rw [e6 v (hΔd v hh)]
                exact hu1
              · rw [if_neg (hΔd v hh), if_neg (hΔd u hu2)]
                exact hu4
            · refine ⟨current, e5 v hh, List.mem_append_left _ hcur, hΔnbr v hh, ?_⟩
              rw [if_pos hh, if_neg (hΔd current hcur)])
          (by
            intro x v h
            rcases e8 x v h with hh | hh
            · exact List.mem_append_left _ hh
            · exact List.mem_append_right _ hh)
          (by
            intro v hv
            dsimp only
            rw [e7]
            rcases List.mem_append.mp hv with hh | hh
            · rw [if_neg (hΔd v hh)]
              have := hI8 v hh
              omega
            · rw [if_pos hh]
              have h1 : d current ≤ parent.length := hI8 current hcur
              have h2 : 1 ≤ Δ.length := List.length_pos.mpr (List.ne_nil_of_mem hh)
              omega)
          (by
            intro u hu
            rcases List.mem_append.mp hu with hh | hh
            · exact List.mem_append_left _ (hQ1 u (List.mem_cons_of_mem _ hh))
            · exact List.mem_append_right _ hh)
          (by
            rw [List.pairwise_append]
            refine ⟨?_, ?_, ?_⟩
            · refine pairwise_mono_mem ?_ (List.pairwise_cons.mp hQ2).2
              intro a ha b hb hab
              dsimp only
              rw [if_neg (hΔd a (hQ1 a (List.mem_cons_of_mem _ ha))),
                if_neg (hΔd b (hQ1 b (List.mem_cons_of_mem _ hb)))]
              exact hab
            · refine pairwise_of_all ?_
              intro a ha b hb
              dsimp only
              rw [if_pos ha, if_pos hb]
            · intro a ha b hb
              dsimp only
              rw [if_neg (hΔd a (hQ1 a (List.mem_cons_of_mem _ ha))), if_pos hb]
              exact hQ3 current (List.mem_cons_self _ _) a (List.mem_cons_of_mem _ ha))
          (by
            intro u hu v hv
            dsimp only
            rcases List.mem_append.mp hu with hhu | hhu
            · rcases List.mem_append.mp hv with hhv | hhv
              · rw [if_neg (hΔd u (hQ1 u (List.mem_cons_of_mem _ hhu))),
                  if_neg (hΔd v (hQ1 v (List.mem_cons_of_mem _ hhv)))]
                exact hQ3 u (List.mem_cons_of_mem _ hhu) v (List.mem_cons_of_mem _ hhv)
              · rw [if_neg (hΔd u (hQ1 u (List.mem_cons_of_mem _ hhu))), if_pos hhv]
                have := hhead u hhu
                omega
            · rcases List.mem_append.mp hv with hhv | hhv
              · rw [if_pos hhu,
                  if_neg (hΔd v (hQ1 v (List.mem_cons_of_mem _ hhv)))]
                have := hQ3 current (List.mem_cons_self _ _) v (List.mem_cons_of_mem _ hhv)
                omega
              · rw [if_pos hhu, if_pos hhv]
                omega)
          (by
            intro v hv hvq
            rcases List.mem_append.mp hv with hh | hh
            · by_cases hvc : v = current
              · subst hvc
                intro w hw
                exact e9 w hw
              · have hvq0 : v ∉ current :: qrest := by
                  intro hmem
                  rcases List.mem_cons.mp hmem with hh2 | hh2
                  · exact hvc hh2
                  · exact hvq (List.mem_append_left _ hh2)
                intro w hw
                exact List.mem_append_left _ (hQ4 v hh hvq0 w hw)
            · exact absurd (List.mem_append_right _ hh) hvq)
          (by
            intro hmem
            rcases List.mem_append.mp hmem with hh | hh
            · exact htv hh
            · exact (e4 target hh).2.2 rfl)
        rw [e2]
        exact happly

/-- The parent-chain walk of `reconstructPath` terminates within the
depth of its start node, accumulating exactly the chain back to the
source; reversed, it is an adjacency path from the source. -/
theorem reconstructGo_spec (g : Graph) (src : String) (parent : List (String × String))
    (d : String → Nat) (visited2 : List String)
    (hd0 : d src = 0)
    (hchain : ∀ v ∈ visited2, v ≠ src → ∃ u, alGet parent v = some u ∧ u ∈ visited2 ∧
      v ∈ g.neighbors u ∧ d v = d u + 1) :
    ∀ (n : Nat) (v : String), v ∈ visited2 → d v = n →
      ∀ (fuel : Nat), n < fuel → ∀ (acc : List String),
        ∃ tail : List String,
          reconstructGo parent src fuel v acc = some ((acc ++ tail).reverse) ∧
          tail.length = n ∧
          g.chainB ((v :: tail).reverse) = true ∧
          ((v :: tail).reverse).head? = some src ∧
          ((v :: tail).reverse).getLast? = some v := by
  intro n
  induction n with
  | zero =>
    intro v hv hdv fuel hfuel acc
    have hvs : v = src := by
      by_contra hne
      obtain ⟨u, -, -, -, h4⟩ := hchain v hv hne
      rw [hdv] at h4
      omega
    subst hvs
    cases fuel with
    | zero => omega
    | succ f =>
      rw [reconstructGo, if_pos rfl]
      exact ⟨[], by rw [List.append_nil], rfl, rfl, rfl, rfl⟩
  | succ m ih =>
    intro v hv hdv fuel hfuel acc
    have hvs : v ≠ src := by
      intro he
      rw [he, hd0] at hdv
      omega
    obtain ⟨u, hu1, hu2, hu3, hu4⟩ := hchain v hv hvs
    have hdu : d u = m := by
      rw [hdv] at hu4
      omega
    cases fuel with
    | zero => omega
    | succ f =>
      rw [reconstructGo, if_neg hvs, hu1]
      obtain ⟨tail, ht1, ht2, ht3, ht4, ht5⟩ := ih u hu2 hdu f (by omega) (acc ++ [u])
      refine ⟨u :: tail, ?_, ?_, ?_, ?_, ?_⟩
      · show reconstructGo parent src f u (acc ++ [u]) = some ((acc ++ u :: tail).reverse)
        rw [ht1, List.append_assoc]
        rfl
      · rw [List.length_cons, ht2]
      · rw [List.reverse_cons]
        exact chainB_extend g _ u v ht3 ht5 hu3
      · rw [List.reverse_cons]
        exact head?_append_left _ ht4
      · rw [List.reverse_cons]
        exact List.getLast?_concat _

/-- `shortestPath` on distinct present endpoints: `none` exactly on
disconnection, otherwise a genuinely shortest adjacency path. -/
theorem shortestPath_spec (g : Graph) (s t : String)
    (hs : alHas g.adjacency s = true) (ht : alHas g.adjacency t = true) (hne : s ≠ t) :
    (match g.shortestPath s t with
     | none => ¬ g.Connected s t
     | some p => g.IsPathFT s t p ∧ ∀ q, g.IsPathFT s t q → p.length ≤ q.length) := by
  have hmain := bfsLoop_spec g s t (bfsFuel g) [s] [s] [] (fun _ => 0)
    (by
      rw [bfsFuel]
      simp only [List.length_cons, List.length_nil]
      omega)
    (List.mem_singleton.mpr rfl) rfl (List.nodup_singleton _)
    (fun v hv => Or.inl (List.mem_singleton.mp hv))
    (fun v hv => by rw [List.mem_singleton.mp hv]; exact ReachLen_refl g s)
    (fun v _ n _ => Nat.zero_le n)
    (fun v hv hvs => absurd (List.mem_singleton.mp hv) hvs)
    (fun x v h => by cases h)
    (fun v _ => Nat.zero_le _)
    (fun u hu => hu)
    (List.pairwise_singleton _ _)
    (fun u _ v _ => Nat.le_succ 0)
    (fun v hv hvq => absurd hv hvq)
    (fun hmem => hne (List.mem_singleton.mp hmem).symm)
  cases hb : bfsLoop g t (bfsFuel g) [s] [s] [] with
  | none =>
    have hsp : g.shortestPath s t = none := by
      rw [Graph.shortestPath, if_neg (fun hc => hc ⟨hs, ht⟩), if_neg hne, hb]
    rw [hb] at hmain
    rw [hsp]
    intro hconn
    obtain ⟨n, hn⟩ := (connected_iff_reachLen g s t).mp hconn
    exact hmain n hn
  | some parent2 =>
    rw [hb] at hmain
    obtain ⟨d2, visited2, m1, m2, m3, m4, m5, m6, m7, m8⟩ := hmain
    obtain ⟨tail, r1, r2, r3, r4, r5⟩ := reconstructGo_spec g s parent2 d2 visited2 m2 m5
      (d2 t) t m3 rfl (parent2.length + 1) (by have := m6 t m3; omega) [t]
    have hsp : g.shortestPath s t = some (([t] ++ tail).reverse) := by
      rw [Graph.shortestPath, if_neg (fun hc => hc ⟨hs, ht⟩), if_neg hne, hb]
      exact r1
    rw [hsp]
    show g.IsPathFT s t (([t] ++ tail).reverse) ∧
      ∀ q, g.IsPathFT s t q → (([t] ++ tail).reverse).length ≤ q.length
    have hplen : (([t] ++ tail).reverse).length = d2 t + 1 := by
      rw [List.length_reverse, List.length_append, r2]
      simp [Nat.add_comm]
    refine ⟨⟨r4, r5, r3⟩, ?_⟩
    intro q hq
    have hqpos : 1 ≤ q.length := List.length_pos.mpr (chainB_ne_nil hq.2.2)
    have hql : ReachLen g s t (q.length - 1) := ⟨q, hq, by omega⟩
    have := m8 (q.length - 1) hql
    omega

/-- C1: for every graph and every pair of distinct ids present in the
adjacency map and connected, `shortestPath` returns a sequence starting
at the source and ending at the target in which consecutive ids are
adjacent and whose length is minimal over all such paths (the function
is deterministic by construction, expanding neighbors in adjacency
insertion order); on the path graph A–B–C–D it returns
`[A, B, C, D]`, a path of 3 hops. -/
theorem c1_shortestPath_bfs (g : Graph) (s t : String)
    (hs : alHas g.adjacency s = true) (ht : alHas g.adjacency t = true)
    (hne : s ≠ t) (hconn : g.Connected s t) :
    (∃ p, g.shortestPath s t = some p ∧ g.IsPathFT s t p ∧
      ∀ q, g.IsPathFT s t q → p.length ≤ q.length) ∧
    demoPathGraph.shortestPath "A" "D" = some ["A", "B", "C", "D"] ∧
    (["A", "B", "C", "D"] : List String).length - 1 = 3 := by
  refine ⟨?_, by decide, rfl⟩
  have hspec := shortestPath_spec g s t hs ht hne
  cases hsp : g.shortestPath s t with
  | none =>
    rw [hsp] at hspec
    exact absurd hconn hspec
  | some p =>
    rw [hsp] at hspec
    exact ⟨p, rfl, hspec.1, hspec.2⟩

theorem c1_shortestPath_bfs_witness :
    alHas demoPathGraph.adjacency "A" = true ∧
    alHas demoPathGraph.adjacency "D" = true ∧
    "A" ≠ "D" ∧ demoPathGraph.Connected "A" "D" ∧
    ((∃ p, demoPathGraph.shortestPath "A" "D" = some p ∧
        demoPathGraph.IsPathFT "A" "D" p ∧
        ∀ q, demoPathGraph.IsPathFT "A" "D" q → p.length ≤ q.length) ∧
      demoPathGraph.shortestPath "A" "D" = some ["A", "B", "C", "D"] ∧
      (["A", "B", "C", "D"] : List String).length - 1 = 3) :=
  ⟨by decide, by decide, by decide,
   ⟨["A", "B", "C", "D"], ⟨rfl, rfl, rfl⟩⟩,
   c1_shortestPath_bfs demoPathGraph "A" "D" (by decide) (by decide) (by decide)
     ⟨["A", "B", "C", "D"], ⟨rfl, rfl, rfl⟩⟩⟩

/-- C8: `shortestPath(x, y)` returns `none` exactly when `x` or `y` is
absent from the adjacency map or no adjacency path joins them; it is a
total function (modeled without an error channel), so it never raises. -/
theorem c8_shortestPath_none_iff (g : Graph) (x y : String) :
    g.shortestPath x y = none ↔
      (alHas g.adjacency x = false ∨ alHas g.adjacency y = false ∨
        ¬ g.Connected x y) := by
  by_cases hx : alHas g.adjacency x = true
  · by_cases hy : alHas g.adjacency y = true
    · by_cases hxy : x = y
      · subst hxy
        have hsp : g.shortestPath x x = some [x] := by
          rw [Graph.shortestPath, if_neg (fun hc => hc ⟨hx, hy⟩), if_pos rfl]
        constructor
        · intro h
          rw [hsp] at h
          cases h
        · rintro (h | h | h)
          · rw [hx] at h
            cases h
          · rw [hy] at h
            cases h
          · exact absurd ⟨[x], rfl, rfl, rfl⟩ h
      · have hspec := shortestPath_spec g x y hx hy hxy
        cases hsp : g.shortestPath x y with
        | none =>
          rw [hsp] at hspec
          exact iff_of_true rfl (Or.inr (Or.inr hspec))
        | some p =>
          rw [hsp] at hspec
          refine iff_of_false (by simp) ?_
          rintro (h | h | h)
          · rw [hx] at h
            cases h
          · rw [hy] at h
            cases h
          · exact h ⟨p, hspec.1⟩
    · have hsp : g.shortestPath x y = none := by
        rw [Graph.shortestPath, if_pos (fun hc => hy hc.2)]
      exact iff_of_true hsp (Or.inr (Or.inl (by simpa using hy)))
  · have hsp : g.shortestPath x y = none := by
      rw [Graph.shortestPath, if_pos (fun hc => hx hc.1)]
    exact iff_of_true hsp (Or.inl (by simpa using hx))

end MusicDagistan
